import Mathlib

/-!
Verification of the event-sourced state engine of the `save-app` budgeting
application (sources: `src/app.ts`, `src/data-model.ts`, `src/utils.ts`).

Shallow embedding conventions:

* JS numbers that hold money amounts, rates and (finite) timestamps are
  modelled as rationals (`ℚ`); every arithmetic operation the engine performs
  on them (addition, subtraction, multiplication, division by a nonzero
  rate) is exact on the reachable values, so `ℚ` is a faithful model.
* The one place where the engine deliberately produces the JS value
  `Infinity` (a time cursor advanced by `cost / rate` with a zero rate,
  spelled `allocatedRate ? cost / rateInDollarsPerMs(allocatedRate)
  : Infinity` in the source) is modelled by the two-constructor type
  `JTime`; `serializeDate` maps `Infinity` to the string literal `"never"`
  and is the identity in the model.
* `serializeDate` / `deserializeDate` convert between millisecond numbers
  and ISO-8601 strings in the source; both representations are totally
  ordered the same way, so the model keeps a single representation and the
  two functions are identities.
* The uuid strings used as action / list / item identifiers are opaque and
  only ever compared for equality; they are modelled as `ℕ`.
* The md5 content hash is modelled by the free hash chain `Hash`: the
  digest of `[prevHash, actionWithoutHashField]` is represented by the
  injective constructor `Hash.chain prevHash content`.  This is the
  idealization the source itself relies on ("the hash allows us to quickly
  merge two histories", collisions only cost performance, source comment at
  `calculateActionHash`).  The hash field carried by a legacy
  `MigrateState` payload is an arbitrary foreign string (or absent) and is
  modelled by the constructor `Hash.legacy`.
* Fields that the source treats as possibly-undefined (it applies `??=`
  defaults to them at the start of every projection) are modelled as
  `Option`s; the `??=` statements become `Option.getD` with the same
  default values.
-/

set_option linter.unusedVariables false

namespace SaveApp

/-- A piecewise-linear money value `{ value, rate }` (`LinearAmount` in
`data-model.ts`): `value` holds at the owning snapshot's `time`, `rate` is
dollars per day. -/
structure LinearAmount where
  value : ℚ
  rate : ℚ
deriving DecidableEq, Repr

/-- The budget unit of a list: the source's `getAllocatedRate` understands
`'/month'` and `'/day'` and throws on anything else, so the embedding
restricts the unit to these two values (an unknown unit is an unrecoverable
configuration error, spec section 7). -/
inductive BudgetUnit where
  | month
  | day
deriving DecidableEq, Repr

/-- A budget rate (`BudgetAmount` in `data-model.ts`): dollars plus unit. -/
structure BudgetAmount where
  dollars : ℚ
  unit : BudgetUnit
deriving DecidableEq, Repr

/-- A JS number that may be the special value `Infinity` ( serialized as the
string `"never"`).  Used for time cursors, expected dates and the
`nextNonlinearity` field. -/
inductive JTime where
  | fin (t : ℚ)
  | inf
deriving DecidableEq, Repr

/-- JS addition on possibly-infinite times: `Infinity` is absorbing. -/
def JTime.add : JTime → JTime → JTime
  | .fin a, .fin b => .fin (a + b)
  | _, _ => .inf

/-- JS `<` on possibly-infinite times (`Infinity < Infinity` is `false`). -/
def JTime.ltb : JTime → JTime → Bool
  | .fin a, .fin b => a < b
  | .fin _, .inf => true
  | .inf, _ => false

/-- A savings goal (`Item` in `data-model.ts`).  `name`, `price` and `saved`
are defaulted by the projection (`??=`), hence `Option`; `expectedDate`
`none` covers both JS `null` and absent. -/
structure Item where
  id : ℕ
  name : Option String
  price : Option ℚ
  saved : Option LinearAmount
  note : Option String
  expectedDate : Option JTime
deriving DecidableEq, Repr

/-- A completed purchase (`PurchaseHistoryItem` in `data-model.ts`). -/
structure PurchaseHistoryItem where
  id : ℕ
  name : Option String
  priceEstimate : ℚ
  price : ℚ
  purchaseDate : ℚ
deriving DecidableEq, Repr

/-- A budget category (the `List` interface in `data-model.ts`; named
`BudgetList` here because `List` is taken in Lean). -/
structure BudgetList where
  id : ℕ
  name : Option String
  items : Option (List Item)
  budget : Option BudgetAmount
  kitty : Option LinearAmount
  purchaseHistory : Option (List PurchaseHistoryItem)
deriving DecidableEq, Repr

/-- The variant payload of an action (the `type` discriminator plus
variant-specific fields of the `Action` union in `data-model.ts`).  The
`migrateState` payload carries the fields of the embedded legacy snapshot
(`id`, `lists`, `time`, `nextNonlinearity`, `hash`); its hash is a foreign
legacy digest string (or absent), modelled as `Option ℕ`. -/
inductive ActionData where
  | newState
  | migrateState (stateId : ℕ) (lists : List BudgetList) (time : ℚ)
      (nextNonlinearity : Option JTime) (stateHash : Option ℕ)
  | listNew (name : String)
  | listDelete (listId : ℕ)
  | listSetName (listId : ℕ) (newName : String)
  | listSetBudget (listId : ℕ) (budget : BudgetAmount)
  | listInjectMoney (listId : ℕ) (amount : ℚ)
  | itemNew (listId : ℕ)
  | itemMove (itemId : ℕ) (targetListId : ℕ) (targetIndex : ℤ)
  | itemDelete (itemId : ℕ)
  | itemSetName (itemId : ℕ) (name : String)
  | itemSetPrice (itemId : ℕ) (price : ℚ)
  | itemSetNote (itemId : ℕ) (note : String)
  | itemPurchase (itemId : ℕ) (actualPrice : ℚ)
  | itemRedistributeMoney (itemId : ℕ)
  | undo (actionIdToUndo : ℕ)
  | redo (actionIdToRedo : ℕ)
deriving DecidableEq, Repr

/-- Everything of an action except its `hash` field: this is exactly what
`calculateActionHash` digests (`const { hash, ...contentToHash } = action`). -/
structure ActionContent where
  id : ℕ
  time : ℚ
  data : ActionData
deriving DecidableEq, Repr

/-- The content hash.  `empty` is `md5Hash('')` (the source's `emptyHash`),
`chain prev content` is `md5Hash(JSON.stringify([prevHash, content]))`, and
`legacy code` is a digest string carried by a legacy `MigrateState` payload
(`none` when the legacy snapshot had no hash field). -/
inductive Hash where
  | empty
  | legacy (code : Option ℕ)
  | chain (prev : Hash) (content : ActionContent)
deriving DecidableEq, Repr

/-- An action of the append-only log (`Action` in `data-model.ts`): id,
timestamp, variant payload and chained hash. -/
structure Action where
  id : ℕ
  time : ℚ
  data : ActionData
  hash : Hash
deriving DecidableEq, Repr

/-- The derived state view (`Snapshot` in `data-model.ts`). -/
structure Snapshot where
  id : ℕ
  lists : List BudgetList
  time : Option ℚ
  nextNonlinearity : Option JTime
  hash : Hash
deriving DecidableEq, Repr

/-! # `utils.ts` -/

/-- `getAllocatedRate` from `utils.ts`: dollars/month become dollars/day via
`dollars * 12 / 365.25`; dollars/day pass through.  (The unknown-unit throw
is unrepresentable because `BudgetUnit` only has the two understood
values.) -/
def getAllocatedRate (budget : BudgetAmount) : ℚ :=
  match budget.unit with
  | .month => budget.dollars * 12 / (365.25 : ℚ)
  | .day => budget.dollars

/-- `rateInDollarsPerMs` from `app.ts`: rates are stored in dollars per day
but used in dollars per millisecond. -/
def rateInDollarsPerMs (rate : ℚ) : ℚ :=
  rate / 86400000

/-! # Projection engine (`mutatingProjection` / `projection` in `app.ts`) -/

/-- The time-cursor advance `timeCursor += allocatedRate ? amount /
rateInDollarsPerMs(allocatedRate) : Infinity` (a zero rate is falsy in JS
and yields `Infinity`). -/
def advanceBy (allocatedRate : ℚ) (c : JTime) (amount : ℚ) : JTime :=
  c.add (if allocatedRate = 0 then .inf
         else .fin (amount / rateInDollarsPerMs allocatedRate))

/-- The nonlinearity accumulator update `if (!timeOfNextNonlinearity ||
timeCursor < timeOfNextNonlinearity) timeOfNextNonlinearity = timeCursor`.
Note the JS falsiness: not only `null` but also the number `0` counts as
unset. -/
def nlUpdate (nl : Option JTime) (c : JTime) : Option JTime :=
  match nl with
  | none => some c
  | some v => if v = .fin 0 then some c else if JTime.ltb c v then some c else nl

/-- The final store `state.nextNonlinearity = timeOfNextNonlinearity ?
serializeDate(timeOfNextNonlinearity) : null`; again the number `0` is
falsy and becomes `null`, and `serializeDate Infinity` is `"never"`
(represented by `JTime.inf` itself). -/
def nlFinalize : Option JTime → Option JTime
  | none => none
  | some (.fin q) => if q = 0 then none else some (.fin q)
  | some .inf => some .inf

/-- The per-item waterfall state of `mutatingProjection`'s inner loop:
already-processed items, `remainingMoneyToAllocate`, `overflowRate`,
`timeCursor` and the threaded `timeOfNextNonlinearity`. -/
structure ItemAcc where
  items : List Item
  remainingMoneyToAllocate : ℚ
  overflowRate : ℚ
  timeCursor : JTime
  nl : Option JTime
deriving DecidableEq, Repr

/-- One step of the item loop of `mutatingProjection` (`for (const item of
list.items)`), including the `??=` defaults applied to the item's fields. -/
def projectItem (allocatedRate : ℚ) (acc : ItemAcc) (item : Item) : ItemAcc :=
  let name := item.name.getD "Item"          -- item.name ??= 'Item'
  let price := item.price.getD 0             -- item.price ??= 0
  let saved := item.saved.getD ⟨0, 0⟩        -- item.saved ??= { value: 0, rate: 0 }
  let remainingCost := price - saved.value
  let timeCursor := advanceBy allocatedRate acc.timeCursor remainingCost
  if acc.remainingMoneyToAllocate ≥ remainingCost then
    { acc with
      items := acc.items ++ [{ item with
        name := some name, price := some price,
        saved := some ⟨price, 0⟩, expectedDate := none }],
      remainingMoneyToAllocate := acc.remainingMoneyToAllocate - remainingCost,
      timeCursor := timeCursor }
  else
    { items := acc.items ++ [{ item with
        name := some name, price := some price,
        saved := some ⟨saved.value + acc.remainingMoneyToAllocate, acc.overflowRate⟩,
        expectedDate := some timeCursor }],
      remainingMoneyToAllocate := 0,
      overflowRate := 0,
      timeCursor := timeCursor,
      nl := nlUpdate acc.nl timeCursor }

/-- One iteration of `mutatingProjection`'s outer loop (`for (const list of
state.lists)`): apply the `??=` defaults, carve out debt, run the item
waterfall and store the leftover into the kitty.  Returns the projected
list together with the updated `timeOfNextNonlinearity`. -/
def projectList (lastCommitTime toTime : ℚ) (nl : Option JTime)
    (list : BudgetList) : BudgetList × Option JTime :=
  let name := list.name.getD "Wish list"                 -- list.name ??= 'Wish list'
  let budget := list.budget.getD ⟨0, .month⟩             -- list.budget ??= { dollars: 0, unit: '/month' }
  let kitty := list.kitty.getD ⟨0, 0⟩                    -- list.kitty ??= { value: 0, rate: 0 }
  let items := list.items.getD []                        -- list.items ??= []
  let purchaseHistory := list.purchaseHistory.getD []    -- list.purchaseHistory ??= []
  let allocatedRate := getAllocatedRate budget
  let timeCursor0 : JTime := .fin lastCommitTime
  let remaining0 :=
    kitty.value + rateInDollarsPerMs allocatedRate * (toTime - lastCommitTime)
  -- Debt carve (`if (remainingMoneyToAllocate < 0) { ... }`): the deficit
  -- moves into the debt pair, the allocatable pool and overflow rate drop
  -- to zero, the cursor advances to the debt payoff moment, and that moment
  -- is a nonlinearity candidate.  (Written one component at a time so that
  -- each field is an independent conditional.)
  let debt := if remaining0 < 0 then -remaining0 else 0
  let debtRate := if remaining0 < 0 then -allocatedRate else 0
  let remainingMoneyToAllocate := if remaining0 < 0 then 0 else remaining0
  let overflowRate := if remaining0 < 0 then 0 else allocatedRate
  let timeCursor :=
    if remaining0 < 0 then advanceBy allocatedRate timeCursor0 debt else timeCursor0
  let nl :=
    if remaining0 < 0 then nlUpdate nl (advanceBy allocatedRate timeCursor0 debt) else nl
  let acc := items.foldl (projectItem allocatedRate)
    ⟨[], remainingMoneyToAllocate, overflowRate, timeCursor, nl⟩
  ({ list with
      name := some name,
      budget := some budget,
      kitty := some ⟨acc.remainingMoneyToAllocate - debt, acc.overflowRate - debtRate⟩,
      items := some acc.items,
      purchaseHistory := some purchaseHistory },
   acc.nl)

/-- `mutatingProjection` from `app.ts`: project the waterfall model of every
list to the future time `toTime`. -/
def mutatingProjection (state : Snapshot) (toTime : ℚ) : Snapshot :=
  let time := state.time.getD toTime        -- state.time ??= serializeDate(toTime)
  let lastCommitTime := time                -- deserializeDate(state.time)
  let step := fun (acc : List BudgetList × Option JTime) (list : BudgetList) =>
    let (list', nl') := projectList lastCommitTime toTime acc.2 list
    (acc.1 ++ [list'], nl')
  let folded := state.lists.foldl step ([], none)
  { state with
      lists := folded.1,
      time := some toTime,
      nextNonlinearity := nlFinalize folded.2 }

/-- `projection` from `app.ts`: the `produce` copy-on-write wrapper around
`mutatingProjection`; in the pure model it is the same function. -/
def projection (state : Snapshot) (toTime : ℚ) : Snapshot :=
  mutatingProjection state toTime

/-! # Projection fold analysis -/

/-- Shorthand: the defaulted saved pair of an item (`item.saved ??=
{ value: 0, rate: 0 }`). -/
def savedD (i : Item) : LinearAmount := i.saved.getD ⟨0, 0⟩

/-- Shorthand: the defaulted price of an item (`item.price ??= 0`). -/
def priceD (i : Item) : ℚ := i.price.getD 0

/-- The remaining cost of an item (`remainingCost = price - saved.value`
with the defaults applied). -/
def itemCost (i : Item) : ℚ := priceD i - (savedD i).value

/-- The item the funded branch of the waterfall emits. -/
def fundedItem (i : Item) : Item :=
  { i with
    name := some (i.name.getD "Item")
    price := some (priceD i)
    saved := some ⟨priceD i, 0⟩
    expectedDate := none }

/-- The item the unfunded branch of the waterfall emits: it absorbs the
whole remaining pool `m` and the overflow rate `o`, and is stamped with
the funding moment `c`. -/
def unfundedItem (m o : ℚ) (c : JTime) (i : Item) : Item :=
  { i with
    name := some (i.name.getD "Item")
    price := some (priceD i)
    saved := some ⟨(savedD i).value + m, o⟩
    expectedDate := some c }

theorem projectItem_funded (r : ℚ) (is : List Item) (m o : ℚ) (c : JTime)
    (nl : Option JTime) (x : Item) (hb : m ≥ itemCost x) :
    projectItem r ⟨is, m, o, c, nl⟩ x =
      ⟨is ++ [fundedItem x], m - itemCost x, o, advanceBy r c (itemCost x), nl⟩ := by
  have hb' : m ≥ x.price.getD 0 - (x.saved.getD ⟨0, 0⟩).value := hb
  simp only [projectItem]
  rw [if_pos hb']
  rfl

theorem projectItem_unfunded (r : ℚ) (is : List Item) (m o : ℚ) (c : JTime)
    (nl : Option JTime) (x : Item) (hb : ¬ (m ≥ itemCost x)) :
    projectItem r ⟨is, m, o, c, nl⟩ x =
      ⟨is ++ [unfundedItem m o (advanceBy r c (itemCost x)) x], 0, 0,
        advanceBy r c (itemCost x),
        nlUpdate nl (advanceBy r c (itemCost x))⟩ := by
  have hb' : ¬ (m ≥ x.price.getD 0 - (x.saved.getD ⟨0, 0⟩).value) := hb
  simp only [projectItem]
  rw [if_neg hb']
  rfl

@[simp] theorem fundedItem_expectedDate (i : Item) :
    (fundedItem i).expectedDate = none := rfl

@[simp] theorem unfundedItem_expectedDate (m o : ℚ) (c : JTime) (i : Item) :
    (unfundedItem m o c i).expectedDate = some c := rfl

/-- Master decomposition of the item waterfall: the emitted item list is
appended after the incoming accumulator items, the scalar components are
independent of the incoming items and nonlinearity accumulator, and the
nonlinearity accumulator folds `nlUpdate` exactly over the emitted
`expectedDate`s. -/
theorem foldl_projectItem_master (r : ℚ) (items : List Item) :
    ∀ (is : List Item) (m o : ℚ) (c : JTime) (nl : Option JTime),
      items.foldl (projectItem r) ⟨is, m, o, c, nl⟩ =
        { items := is ++ (items.foldl (projectItem r) ⟨[], m, o, c, none⟩).items
          remainingMoneyToAllocate :=
            (items.foldl (projectItem r) ⟨[], m, o, c, none⟩).remainingMoneyToAllocate
          overflowRate := (items.foldl (projectItem r) ⟨[], m, o, c, none⟩).overflowRate
          timeCursor := (items.foldl (projectItem r) ⟨[], m, o, c, none⟩).timeCursor
          nl := ((items.foldl (projectItem r) ⟨[], m, o, c, none⟩).items.filterMap
            Item.expectedDate).foldl nlUpdate nl } := by
  induction items with
  | nil =>
    intro is m o c nl
    simp [List.foldl_nil, List.filterMap_nil]
  | cons x xs ih =>
    intro is m o c nl
    by_cases hb : m ≥ itemCost x
    · rw [List.foldl_cons, List.foldl_cons,
        projectItem_funded r is m o c nl x hb,
        projectItem_funded r [] m o c none x hb]
      simp only [List.nil_append]
      rw [ih (is ++ [fundedItem x]) (m - itemCost x) o (advanceBy r c (itemCost x)) nl,
        ih [fundedItem x] (m - itemCost x) o (advanceBy r c (itemCost x)) none]
      simp [List.append_assoc, List.filterMap_cons]
    · rw [List.foldl_cons, List.foldl_cons,
        projectItem_unfunded r is m o c nl x hb,
        projectItem_unfunded r [] m o c none x hb]
      simp only [List.nil_append]
      rw [ih (is ++ [unfundedItem m o (advanceBy r c (itemCost x)) x]) 0 0
          (advanceBy r c (itemCost x)) (nlUpdate nl (advanceBy r c (itemCost x))),
        ih [unfundedItem m o (advanceBy r c (itemCost x)) x] 0 0
          (advanceBy r c (itemCost x)) (nlUpdate none (advanceBy r c (itemCost x)))]
      simp [List.append_assoc, List.filterMap_cons]

/-- The pool never goes negative once nonnegative: the funded branch
subtracts at most the pool, the unfunded branch zeroes it. -/
theorem foldl_projectItem_rem_nonneg (r : ℚ) (items : List Item) :
    ∀ (is : List Item) (m o : ℚ) (c : JTime) (nl : Option JTime), 0 ≤ m →
      0 ≤ (items.foldl (projectItem r) ⟨is, m, o, c, nl⟩).remainingMoneyToAllocate := by
  induction items with
  | nil => intro is m o c nl hm; exact hm
  | cons x xs ih =>
    intro is m o c nl hm
    by_cases hb : m ≥ itemCost x
    · rw [List.foldl_cons, projectItem_funded r is m o c nl x hb]
      exact ih _ _ _ _ _ (by linarith [hb])
    · rw [List.foldl_cons, projectItem_unfunded r is m o c nl x hb]
      exact ih _ _ _ _ _ le_rfl

/-- The total saved value of a defaulted item list. -/
def itemsValue (items : List Item) : ℚ :=
  (items.map (fun i => (savedD i).value)).sum

@[simp] theorem itemsValue_nil : itemsValue [] = 0 := rfl

@[simp] theorem itemsValue_cons (x : Item) (xs : List Item) :
    itemsValue (x :: xs) = (savedD x).value + itemsValue xs := by
  simp [itemsValue]

@[simp] theorem itemsValue_append (a b : List Item) :
    itemsValue (a ++ b) = itemsValue a + itemsValue b := by
  simp [itemsValue]

@[simp] theorem savedD_fundedItem (i : Item) :
    savedD (fundedItem i) = ⟨priceD i, 0⟩ := rfl

@[simp] theorem savedD_unfundedItem (m o : ℚ) (c : JTime) (i : Item) :
    savedD (unfundedItem m o c i) = ⟨(savedD i).value + m, o⟩ := rfl

/-- Money conservation through the item waterfall: emitted saved values
plus the leftover pool equal the incoming saved values plus the incoming
pool. -/
theorem foldl_projectItem_value (r : ℚ) (items : List Item) :
    ∀ (m o : ℚ) (c : JTime) (nl : Option JTime),
      itemsValue ((items.foldl (projectItem r) ⟨[], m, o, c, nl⟩).items) +
        (items.foldl (projectItem r) ⟨[], m, o, c, nl⟩).remainingMoneyToAllocate =
      itemsValue items + m := by
  induction items with
  | nil => intro m o c nl; simp
  | cons x xs ih =>
    intro m o c nl
    by_cases hb : m ≥ itemCost x
    · rw [List.foldl_cons, projectItem_funded r [] m o c nl x hb,
        foldl_projectItem_master]
      have := ih (m - itemCost x) o (advanceBy r c (itemCost x)) none
      simp only [itemsValue_append, itemsValue_cons, itemsValue_nil,
        savedD_fundedItem, List.nil_append, List.singleton_append] at this ⊢
      simp only [itemCost] at this ⊢
      linarith [this]
    · rw [List.foldl_cons, projectItem_unfunded r [] m o c nl x hb,
        foldl_projectItem_master]
      have := ih 0 0 (advanceBy r c (itemCost x)) none
      simp only [itemsValue_append, itemsValue_cons, itemsValue_nil,
        savedD_unfundedItem, List.nil_append, List.singleton_append] at this ⊢
      linarith [this]

/-! # Snapshot-level projection decomposition -/

/-- Structural recursion equivalent of `mutatingProjection`'s outer fold:
project each list in order, threading the nonlinearity accumulator. -/
def projListsF (time0 t : ℚ) : Option JTime → List BudgetList →
    List BudgetList × Option JTime
  | nl, [] => ([], nl)
  | nl, l :: ls =>
    let p := projectList time0 t nl l
    let rest := projListsF time0 t p.2 ls
    (p.1 :: rest.1, rest.2)


theorem foldl_projStep (time0 t : ℚ) (lists : List BudgetList) :
    ∀ (done : List BudgetList) (nl : Option JTime),
      lists.foldl (fun (acc : List BudgetList × Option JTime) (list : BudgetList) =>
        let (list', nl') := projectList time0 t acc.2 list
        (acc.1 ++ [list'], nl')) (done, nl) =
      (done ++ (projListsF time0 t nl lists).1, (projListsF time0 t nl lists).2) := by
  induction lists with
  | nil => intro done nl; simp [projListsF]
  | cons l ls ih =>
    intro done nl
    rw [List.foldl_cons]
    show List.foldl _
      (done ++ [(projectList time0 t nl l).1], (projectList time0 t nl l).2) ls = _
    rw [ih]
    simp [projListsF, List.append_assoc]

/-- `mutatingProjection` through the structural outer fold, for a snapshot
with a committed time. -/
theorem mutatingProjection_eq (s : Snapshot) (t time0 : ℚ)
    (hs : s.time = some time0) :
    mutatingProjection s t =
      { s with
        lists := (projListsF time0 t none s.lists).1
        time := some t
        nextNonlinearity := nlFinalize (projListsF time0 t none s.lists).2 } := by
  unfold mutatingProjection
  rw [hs]
  simp only [Option.getD_some]
  rw [foldl_projStep]
  simp

/-! # Per-list projection evaluation -/

/-- Shorthand: the defaulted budget of a list (`list.budget ??= { dollars:
0, unit: month }`). -/
def budgetD (l : BudgetList) : BudgetAmount := l.budget.getD ⟨0, .month⟩

/-- Shorthand: the defaulted kitty of a list. -/
def kittyD (l : BudgetList) : LinearAmount := l.kitty.getD ⟨0, 0⟩

/-- Shorthand: the defaulted item array of a list. -/
def itemsD (l : BudgetList) : List Item := l.items.getD []

/-- The allocated dollars-per-day rate of a list's defaulted budget. -/
def listRate (l : BudgetList) : ℚ := getAllocatedRate (budgetD l)

/-- The initial allocatable pool of a list: kitty plus rate-integrated
inflow between the committed time and the projection target. -/
def rem0 (time0 t : ℚ) (l : BudgetList) : ℚ :=
  (kittyD l).value + rateInDollarsPerMs (listRate l) * (t - time0)

/-- The item-waterfall accumulator a list projection ends with, after the
debt carve chose the initial pool, overflow rate, cursor and nonlinearity
accumulator. -/
def projAcc (time0 t : ℚ) (nl : Option JTime) (l : BudgetList) : ItemAcc :=
  if rem0 time0 t l < 0 then
    (itemsD l).foldl (projectItem (listRate l))
      ⟨[], 0, 0, advanceBy (listRate l) (.fin time0) (-(rem0 time0 t l)),
        nlUpdate nl (advanceBy (listRate l) (.fin time0) (-(rem0 time0 t l)))⟩
  else
    (itemsD l).foldl (projectItem (listRate l))
      ⟨[], rem0 time0 t l, listRate l, .fin time0, nl⟩

/-- Closed form of one list projection in terms of `projAcc`. -/
theorem projectList_eq (time0 t : ℚ) (nl : Option JTime) (l : BudgetList) :
    projectList time0 t nl l =
      ({ l with
          name := some (l.name.getD "Wish list")
          budget := some (budgetD l)
          kitty := some ⟨(projAcc time0 t nl l).remainingMoneyToAllocate -
              (if rem0 time0 t l < 0 then -(rem0 time0 t l) else 0),
            (projAcc time0 t nl l).overflowRate -
              (if rem0 time0 t l < 0 then -(listRate l) else 0)⟩
          items := some (projAcc time0 t nl l).items
          purchaseHistory := some (l.purchaseHistory.getD []) },
       (projAcc time0 t nl l).nl) := by
  by_cases h : rem0 time0 t l < 0
  · simp only [projAcc, rem0, listRate, budgetD, kittyD, itemsD,
      if_pos h] at h ⊢
    simp only [projectList, if_pos h]
  · simp only [projAcc, rem0, listRate, budgetD, kittyD, itemsD,
      if_neg h] at h ⊢
    simp only [projectList, if_neg h]

/-- Money conservation for one list projection: projected saved values
plus projected kitty equal the original saved values plus original kitty
plus the rate-integrated inflow. -/
theorem projectList_money (time0 t : ℚ) (nl : Option JTime) (l : BudgetList) :
    itemsValue (((projectList time0 t nl l).1).items.getD []) +
      (((projectList time0 t nl l).1).kitty.getD ⟨0, 0⟩).value =
    itemsValue (l.items.getD []) + (l.kitty.getD ⟨0, 0⟩).value +
      rateInDollarsPerMs (getAllocatedRate (l.budget.getD ⟨0, .month⟩)) * (t - time0) := by
  rw [projectList_eq]
  simp only [Option.getD_some]
  by_cases h : rem0 time0 t l < 0
  · simp only [projAcc, if_pos h]
    have hval := foldl_projectItem_value (listRate l) (itemsD l) 0 0
      (advanceBy (listRate l) (.fin time0) (-(rem0 time0 t l)))
      (nlUpdate nl (advanceBy (listRate l) (.fin time0) (-(rem0 time0 t l))))
    simp only [rem0, listRate, budgetD, kittyD, itemsD] at hval ⊢
    linarith [hval]
  · simp only [projAcc, if_neg h]
    have hval := foldl_projectItem_value (listRate l) (itemsD l) (rem0 time0 t l)
      (listRate l) (.fin time0) nl
    simp only [rem0, listRate, budgetD, kittyD, itemsD] at hval ⊢
    linarith [hval]

theorem projListsF_money (time0 t : ℚ) (lists : List BudgetList) :
    ∀ nl : Option JTime,
      List.Forall₂ (fun l l' =>
        itemsValue (l'.items.getD []) + (l'.kitty.getD ⟨0, 0⟩).value =
          itemsValue (l.items.getD []) + (l.kitty.getD ⟨0, 0⟩).value +
            rateInDollarsPerMs (getAllocatedRate (l.budget.getD ⟨0, .month⟩)) * (t - time0))
        lists (projListsF time0 t nl lists).1 := by
  induction lists with
  | nil => intro nl; exact List.Forall₂.nil
  | cons l ls ih =>
    intro nl
    simp only [projListsF]
    exact List.Forall₂.cons (projectList_money time0 t nl l)
      (ih (projectList time0 t nl l).2)

/-- C2: money conservation — for every snapshot with committed time
`time0` and every projection target `t ≥ time0`, each projected list's
total money (sum of defaulted item saved values plus defaulted kitty
value, a debt being a negative kitty value) equals the list's total money
before projection plus the budget inflow
`rateInDollarsPerMs(allocatedRate(budget)) * (t - time0)`: projection
neither creates nor destroys money, it only redistributes it between the
items and the kitty. -/
theorem money_conservation (s : Snapshot) (time0 t : ℚ)
    (hs : s.time = some time0) (ht : time0 ≤ t) :
    List.Forall₂ (fun l l' =>
      itemsValue (l'.items.getD []) + (l'.kitty.getD ⟨0, 0⟩).value =
        itemsValue (l.items.getD []) + (l.kitty.getD ⟨0, 0⟩).value +
          rateInDollarsPerMs (getAllocatedRate (l.budget.getD ⟨0, .month⟩)) * (t - time0))
      s.lists (projection s t).lists := by
  show List.Forall₂ _ s.lists (mutatingProjection s t).lists
  rw [mutatingProjection_eq s t time0 hs]
  exact projListsF_money time0 t s.lists none

/-- Concrete snapshot for the C2 witness: one list, kitty 3, $5/day
budget, one item of price 10 with nothing saved. -/
def witItemC2 : Item :=
  { id := 2
    name := some "bike"
    price := some 10
    saved := some ⟨0, 0⟩
    note := none
    expectedDate := none }

/-- The list of the C2 witness snapshot. -/
def witListC2 : BudgetList :=
  { id := 1
    name := some "L"
    items := some [witItemC2]
    budget := some ⟨5, .day⟩
    kitty := some ⟨3, 0⟩
    purchaseHistory := some [] }

def witSnapC2 : Snapshot :=
  { id := 0
    lists := [witListC2]
    time := some 0
    nextNonlinearity := none
    hash := Hash.empty }

/-- C2 witness: the conservation theorem at a concrete snapshot projected
one day forward. -/
theorem money_conservation_wit :
    (witSnapC2.time = some 0 ∧ (0 : ℚ) ≤ 86400000) ∧
    List.Forall₂ (fun l l' =>
      itemsValue (l'.items.getD []) + (l'.kitty.getD ⟨0, 0⟩).value =
        itemsValue (l.items.getD []) + (l.kitty.getD ⟨0, 0⟩).value +
          rateInDollarsPerMs (getAllocatedRate (l.budget.getD ⟨0, .month⟩)) *
            (86400000 - 0))
      witSnapC2.lists (projection witSnapC2 86400000).lists :=
  ⟨⟨rfl, by norm_num⟩, money_conservation witSnapC2 0 86400000 rfl (by norm_num)⟩

/-! # Frame analysis of the projection -/

theorem some_getD (o : Option α) (d : α) (h : o.isSome = true) :
    some (o.getD d) = o := by
  cases o with
  | none => simp at h
  | some a => rfl

/-- Upgrade a `Forall₂` relation pointwise, using membership of the left
element. -/
theorem forall2_imp_of_mem {α β : Type} {R S : α → β → Prop} :
    ∀ {l₁ : List α} {l₂ : List β}, List.Forall₂ R l₁ l₂ →
      (∀ a ∈ l₁, ∀ b, R a b → S a b) → List.Forall₂ S l₁ l₂ := by
  intro l₁ l₂ h
  induction h with
  | nil => intro _; exact .nil
  | @cons a b la lb hR hrest ih =>
    intro himp
    exact .cons (himp a (by simp) b hR)
      (ih (fun x hx y hy => himp x (by simp [hx]) y hy))

/-- The per-item frame of the waterfall: ids, names, prices and notes of
the emitted items correspond positionally to the input items (names and
prices defaulted). -/
theorem foldl_projectItem_frame (r : ℚ) (items : List Item) :
    ∀ (m o : ℚ) (c : JTime) (nl : Option JTime),
      List.Forall₂ (fun i i' => i'.id = i.id ∧ i'.name = some (i.name.getD "Item") ∧
          i'.price = some (priceD i) ∧ i'.note = i.note)
        items ((items.foldl (projectItem r) ⟨[], m, o, c, nl⟩).items) := by
  induction items with
  | nil => intro m o c nl; exact List.Forall₂.nil
  | cons x xs ih =>
    intro m o c nl
    by_cases hb : m ≥ itemCost x
    · rw [List.foldl_cons, projectItem_funded r [] m o c nl x hb]
      simp only [List.nil_append]
      rw [foldl_projectItem_master]
      simp only [List.singleton_append]
      exact List.Forall₂.cons ⟨rfl, rfl, rfl, rfl⟩ (ih _ _ _ _)
    · rw [List.foldl_cons, projectItem_unfunded r [] m o c nl x hb]
      simp only [List.nil_append]
      rw [foldl_projectItem_master]
      simp only [List.singleton_append]
      exact List.Forall₂.cons ⟨rfl, rfl, rfl, rfl⟩ (ih _ _ _ _)

/-- The per-list frame of one list projection: id kept, name, budget and
purchase history defaulted in place, items positionally framed. -/
theorem projectList_frame (time0 t : ℚ) (nl : Option JTime) (l : BudgetList) :
    ((projectList time0 t nl l).1).id = l.id ∧
    ((projectList time0 t nl l).1).name = some (l.name.getD "Wish list") ∧
    ((projectList time0 t nl l).1).budget = some (l.budget.getD ⟨0, .month⟩) ∧
    ((projectList time0 t nl l).1).purchaseHistory = some (l.purchaseHistory.getD []) ∧
    List.Forall₂ (fun i i' => i'.id = i.id ∧ i'.name = some (i.name.getD "Item") ∧
        i'.price = some (priceD i) ∧ i'.note = i.note)
      (l.items.getD []) (((projectList time0 t nl l).1).items.getD []) := by
  rw [projectList_eq]
  refine ⟨rfl, rfl, rfl, rfl, ?_⟩
  simp only [Option.getD_some]
  by_cases h : rem0 time0 t l < 0
  · simp only [projAcc, if_pos h, itemsD]
    exact foldl_projectItem_frame _ _ _ _ _ _
  · simp only [projAcc, if_neg h, itemsD]
    exact foldl_projectItem_frame _ _ _ _ _ _

/-- The outer fold preserves the per-list frame, with the defaulted
fields replaced by the original ones for populated lists. -/
theorem projListsF_frame (time0 t : ℚ) (lists : List BudgetList) :
    ∀ nl : Option JTime,
      (∀ l ∈ lists, l.name.isSome ∧ l.budget.isSome ∧ l.purchaseHistory.isSome ∧
        ∀ i ∈ l.items.getD [], i.name.isSome ∧ i.price.isSome) →
      List.Forall₂ (fun l l' =>
        l'.id = l.id ∧ l'.name = l.name ∧ l'.budget = l.budget ∧
        l'.purchaseHistory = l.purchaseHistory ∧
        List.Forall₂ (fun i i' => i'.id = i.id ∧ i'.name = i.name ∧
            i'.price = i.price ∧ i'.note = i.note)
          (l.items.getD []) (l'.items.getD []))
        lists (projListsF time0 t nl lists).1 := by
  induction lists with
  | nil => intro nl _; exact List.Forall₂.nil
  | cons l ls ih =>
    intro nl hp
    obtain ⟨hname, hbudget, hph, hitems⟩ := hp l (by simp)
    obtain ⟨h1, h2, h3, h4, h5⟩ := projectList_frame time0 t nl l
    simp only [projListsF]
    refine List.Forall₂.cons ⟨h1, ?_, ?_, ?_, ?_⟩
      (ih (projectList time0 t nl l).2 (fun x hx => hp x (by simp [hx])))
    · rw [h2]; exact some_getD _ _ hname
    · rw [h3]; exact some_getD _ _ hbudget
    · rw [h4]; exact some_getD _ _ hph
    · refine forall2_imp_of_mem h5 ?_
      intro i hi i' hR
      obtain ⟨hiname, hiprice⟩ := hitems i hi
      refine ⟨hR.1, ?_, ?_, hR.2.2.2⟩
      · rw [hR.2.1]; exact some_getD _ _ hiname
      · rw [hR.2.2.1]
        show some (priceD i) = i.price
        exact some_getD _ _ hiprice

/-- C10: projection frame property — for a snapshot whose lists have
name, budget and purchase history present and whose items have name and
price present, `project(s, t)` keeps the snapshot's `id` and `hash`, sets
`time` to the target, and keeps the number and order of lists and items
together with every list's `id`, `name`, `budget` and `purchaseHistory`
and every item's `id`, `name`, `price` and `note`; only the items' saved
pairs and expected dates, the lists' kitties, and the snapshot's `time`
and `nextNonlinearity` change. -/
theorem projection_frame (s : Snapshot) (t : ℚ)
    (hp : ∀ l ∈ s.lists, l.name.isSome ∧ l.budget.isSome ∧ l.purchaseHistory.isSome ∧
      ∀ i ∈ l.items.getD [], i.name.isSome ∧ i.price.isSome) :
    (projection s t).id = s.id ∧ (projection s t).hash = s.hash ∧
    (projection s t).time = some t ∧
    List.Forall₂ (fun l l' =>
      l'.id = l.id ∧ l'.name = l.name ∧ l'.budget = l.budget ∧
      l'.purchaseHistory = l.purchaseHistory ∧
      List.Forall₂ (fun i i' => i'.id = i.id ∧ i'.name = i.name ∧
          i'.price = i.price ∧ i'.note = i.note)
        (l.items.getD []) (l'.items.getD []))
      s.lists (projection s t).lists := by
  refine ⟨rfl, rfl, rfl, ?_⟩
  show List.Forall₂ _ s.lists (mutatingProjection s t).lists
  simp only [mutatingProjection]
  rw [foldl_projStep]
  simp only [List.nil_append]
  exact projListsF_frame _ t s.lists none hp

/-- Concrete populated snapshot for the C10 witness. -/
def witItemC10 : Item :=
  { id := 2
    name := some "shoes"
    price := some 30
    saved := some ⟨5, 0⟩
    note := some "red"
    expectedDate := none }

/-- The list of the C10 witness snapshot. -/
def witListC10 : BudgetList :=
  { id := 1
    name := some "wish"
    items := some [witItemC10]
    budget := some ⟨10, .day⟩
    kitty := some ⟨0, 0⟩
    purchaseHistory := some [] }

def witSnapC10 : Snapshot :=
  { id := 7
    lists := [witListC10]
    time := some 0
    nextNonlinearity := none
    hash := Hash.empty }

/-- C10 witness: the frame theorem at a concrete populated snapshot. -/
theorem projection_frame_wit :
    (∀ l ∈ witSnapC10.lists, l.name.isSome ∧ l.budget.isSome ∧
      l.purchaseHistory.isSome ∧
      ∀ i ∈ l.items.getD [], i.name.isSome ∧ i.price.isSome) ∧
    ((projection witSnapC10 86400000).id = witSnapC10.id ∧
      (projection witSnapC10 86400000).hash = witSnapC10.hash ∧
      (projection witSnapC10 86400000).time = some 86400000 ∧
      List.Forall₂ (fun l l' =>
        l'.id = l.id ∧ l'.name = l.name ∧ l'.budget = l.budget ∧
        l'.purchaseHistory = l.purchaseHistory ∧
        List.Forall₂ (fun i i' => i'.id = i.id ∧ i'.name = i.name ∧
            i'.price = i.price ∧ i'.note = i.note)
          (l.items.getD []) (l'.items.getD []))
        witSnapC10.lists (projection witSnapC10 86400000).lists) :=
  ⟨by decide, projection_frame witSnapC10 86400000 (by decide)⟩

/-! # Waterfall priority -/

/-- Once the pool and the overflow rate are zero, every further item
(with nonnegative remaining cost) receives neither money nor rate: its
saved pair becomes `{ value: old saved value, rate: 0 }`, and the pool
and overflow rate stay zero. -/
theorem foldl_projectItem_zeroPool (r : ℚ) (items : List Item) :
    ∀ (c : JTime) (nl : Option JTime), (∀ x ∈ items, 0 ≤ itemCost x) →
      (items.foldl (projectItem r) ⟨[], 0, 0, c, nl⟩).remainingMoneyToAllocate = 0 ∧
      (items.foldl (projectItem r) ⟨[], 0, 0, c, nl⟩).overflowRate = 0 ∧
      List.Forall₂ (fun x x' => x'.saved = some ⟨(savedD x).value, 0⟩) items
        ((items.foldl (projectItem r) ⟨[], 0, 0, c, nl⟩).items) := by
  induction items with
  | nil => intro c nl _; exact ⟨rfl, rfl, List.Forall₂.nil⟩
  | cons x xs ih =>
    intro c nl hcost
    have hx : 0 ≤ itemCost x := hcost x (by simp)
    by_cases hb : (0 : ℚ) ≥ itemCost x
    · have hc0 : itemCost x = 0 := le_antisymm hb hx
      rw [List.foldl_cons, projectItem_funded r [] 0 0 c nl x hb]
      simp only [List.nil_append, hc0, sub_zero]
      rw [foldl_projectItem_master]
      obtain ⟨h1, h2, h3⟩ := ih (advanceBy r c 0) none
        (fun y hy => hcost y (by simp [hy]))
      refine ⟨h1, h2, ?_⟩
      simp only [List.singleton_append]
      refine List.Forall₂.cons ?_ h3
      have hpv : priceD x = (savedD x).value := by
        have := hc0
        simp only [itemCost] at this
        linarith
      simp [fundedItem, hpv]
    · rw [List.foldl_cons, projectItem_unfunded r [] 0 0 c nl x hb]
      simp only [List.nil_append]
      rw [foldl_projectItem_master]
      obtain ⟨h1, h2, h3⟩ := ih (advanceBy r c (itemCost x)) none
        (fun y hy => hcost y (by simp [hy]))
      refine ⟨h1, h2, ?_⟩
      simp only [List.singleton_append]
      refine List.Forall₂.cons ?_ h3
      simp [unfundedItem]

/-- Concrete snapshot of the C1 scenario: one list, items priced 10 and
20 with nothing saved, a $5/day budget and an empty kitty. -/
def witItemC1a : Item :=
  { id := 1
    name := some "first"
    price := some 10
    saved := some ⟨0, 0⟩
    note := none
    expectedDate := none }

/-- Second item of the C1 scenario. -/
def witItemC1b : Item :=
  { id := 2
    name := some "second"
    price := some 20
    saved := some ⟨0, 0⟩
    note := none
    expectedDate := none }

/-- The list of the C1 scenario. -/
def witListC1 : BudgetList :=
  { id := 3
    name := some "wish"
    items := some [witItemC1a, witItemC1b]
    budget := some ⟨5, .day⟩
    kitty := some ⟨0, 0⟩
    purchaseHistory := some [] }

def witSnapC1 : Snapshot :=
  { id := 0
    lists := [witListC1]
    time := some 0
    nextNonlinearity := none
    hash := Hash.empty }

/-- C1: waterfall priority — (concrete scenario) projecting a list with
items priced 10 and 20, a $5/day rate, zero saved and an empty kitty two
days forward funds item 1 completely (`saved = { value: 10, rate: 0 }`)
and gives item 2 nothing but the overflow rate
(`saved = { value: 0, rate: 5 }`); (in general) whenever some item of the
list ends the projection not fully funded (its projected saved value is
below its price), every later item receives neither money nor rate: its
projected saved pair is `{ value: its old saved value, rate: 0 }` — money
and rate flow to an item only after every earlier item is fully funded. -/
theorem waterfall_priority :
    ((projection witSnapC1 172800000).lists.map
        (fun l => (l.items.getD []).map Item.saved) =
      [[some ⟨10, 0⟩, some ⟨0, 5⟩]]) ∧
    (∀ (r : ℚ) (pre : List Item) (x : Item) (post : List Item) (m o : ℚ)
        (c : JTime) (nl : Option JTime),
      (∀ y ∈ post, 0 ≤ itemCost y) →
      (((pre ++ [x]).foldl (projectItem r) ⟨[], m, o, c, nl⟩).items.getLast?.map
        (fun it => decide ((it.saved.getD ⟨0, 0⟩).value < it.price.getD 0)) =
        some true) →
      ∃ out, ((pre ++ [x] ++ post).foldl (projectItem r) ⟨[], m, o, c, nl⟩).items =
          ((pre ++ [x]).foldl (projectItem r) ⟨[], m, o, c, nl⟩).items ++ out ∧
        List.Forall₂ (fun y y' => y'.saved = some ⟨(savedD y).value, 0⟩) post out) := by
  constructor
  · with_unfolding_all decide
  · intro r pre x post m o c nl hpost hlast
    have hsplit : (pre ++ [x]).foldl (projectItem r) ⟨[], m, o, c, nl⟩ =
        projectItem r (pre.foldl (projectItem r) ⟨[], m, o, c, nl⟩) x := by
      rw [List.foldl_append, List.foldl_cons, List.foldl_nil]
    rcases hPacc : pre.foldl (projectItem r) ⟨[], m, o, c, nl⟩ with ⟨isP, mP, oP, cP, nlP⟩
    rw [hPacc] at hsplit
    by_cases hb : mP ≥ itemCost x
    · rw [hsplit, projectItem_funded r isP mP oP cP nlP x hb] at hlast
      rw [List.getLast?_concat] at hlast
      rw [Option.map_some'] at hlast
      have hfalse := of_decide_eq_true (Option.some.inj hlast)
      simp only [fundedItem] at hfalse
      simp at hfalse
    · rw [List.foldl_append, hsplit,
        projectItem_unfunded r isP mP oP cP nlP x hb,
        foldl_projectItem_master]
      refine ⟨(post.foldl (projectItem r)
        ⟨[], 0, 0, advanceBy r cP (itemCost x), none⟩).items, rfl, ?_⟩
      exact (foldl_projectItem_zeroPool r post
        (advanceBy r cP (itemCost x)) none hpost).2.2

/-- Unfunded head item for the C1 witness (price 10, nothing saved,
pool 5). -/
def witItemC1x : Item :=
  { id := 4
    name := some "head"
    price := some 10
    saved := some ⟨0, 0⟩
    note := none
    expectedDate := none }

/-- Later item for the C1 witness (price 20, nothing saved). -/
def witItemC1y : Item :=
  { id := 5
    name := some "tail"
    price := some 20
    saved := some ⟨0, 0⟩
    note := none
    expectedDate := none }

/-- C1 witness: the waterfall theorem's general half at a concrete
unfunded head item followed by one further item. -/
theorem waterfall_priority_wit :
    ((∀ y ∈ [witItemC1y], 0 ≤ itemCost y) ∧
      ((([] ++ [witItemC1x]).foldl (projectItem 5)
          ⟨[], 5, 5, .fin 0, none⟩).items.getLast?.map
        (fun (it : Item) => decide ((it.saved.getD ⟨0, 0⟩).value < it.price.getD 0)) =
        some true)) ∧
    (∃ out, (([] ++ [witItemC1x] ++ [witItemC1y]).foldl (projectItem 5)
          ⟨[], 5, 5, .fin 0, none⟩).items =
        (([] ++ [witItemC1x]).foldl (projectItem 5) ⟨[], 5, 5, .fin 0, none⟩).items
          ++ out ∧
      List.Forall₂ (fun y y' => y'.saved = some ⟨(savedD y).value, 0⟩)
        [witItemC1y] out) :=
  ⟨⟨by with_unfolding_all decide, by with_unfolding_all decide⟩,
    waterfall_priority.2 5 [] witItemC1x [witItemC1y] 5 5 (.fin 0) none
      (by with_unfolding_all decide) (by with_unfolding_all decide)⟩

/-! # Nonlinearity candidates -/

/-- The nonlinearity accumulator at the end of a fold, in terms of the
emitted expected dates. -/
theorem foldl_projectItem_nl (r : ℚ) (items : List Item) (m o : ℚ) (c : JTime)
    (nl : Option JTime) :
    (items.foldl (projectItem r) ⟨[], m, o, c, nl⟩).nl =
      (((items.foldl (projectItem r) ⟨[], m, o, c, none⟩).items).filterMap
        Item.expectedDate).foldl nlUpdate nl := by
  conv_lhs => rw [foldl_projectItem_master]

/-- The emitted item list does not depend on the incoming nonlinearity
accumulator. -/
theorem foldl_projectItem_items_nl_indep (r : ℚ) (items : List Item) (m o : ℚ)
    (c : JTime) (nl : Option JTime) :
    (items.foldl (projectItem r) ⟨[], m, o, c, nl⟩).items =
      (items.foldl (projectItem r) ⟨[], m, o, c, none⟩).items := by
  conv_lhs => rw [foldl_projectItem_master]
  simp

/-- The debt-payoff nonlinearity candidate of a list (present exactly when
the initial pool is negative). -/
def debtCandidate (time0 t : ℚ) (l : BudgetList) : List JTime :=
  if rem0 time0 t l < 0 then
    [advanceBy (listRate l) (.fin time0) (-(rem0 time0 t l))]
  else []

/-- All nonlinearity candidates of one list, in the order the projection
visits them: the debt payoff moment, then the expected funding moment of
each unfunded item (the projected items' `expectedDate`s). -/
def nlCandidates (time0 t : ℚ) (l : BudgetList) : List JTime :=
  debtCandidate time0 t l ++
    (((projectList time0 t none l).1).items.getD []).filterMap Item.expectedDate

/-- One list projection folds `nlUpdate` exactly over the list's
candidates. -/
theorem projectList_nl (time0 t : ℚ) (nl : Option JTime) (l : BudgetList) :
    (projectList time0 t nl l).2 = (nlCandidates time0 t l).foldl nlUpdate nl := by
  unfold nlCandidates debtCandidate
  simp only [projectList_eq, Option.getD_some]
  by_cases h : rem0 time0 t l < 0
  · simp only [projAcc, if_pos h]
    conv_lhs => rw [foldl_projectItem_nl]
    conv_rhs => rw [foldl_projectItem_items_nl_indep]
    simp [List.foldl_append]
  · simp only [projAcc, if_neg h]
    conv_lhs => rw [foldl_projectItem_nl]
    simp

/-- The outer fold folds `nlUpdate` over the concatenation of every
list's candidates. -/
theorem projListsF_nl (time0 t : ℚ) (lists : List BudgetList) :
    ∀ nl : Option JTime,
      (projListsF time0 t nl lists).2 =
        ((lists.map (nlCandidates time0 t)).join).foldl nlUpdate nl := by
  induction lists with
  | nil => intro nl; rfl
  | cons l ls ih =>
    intro nl
    simp only [projListsF, List.map_cons]
    rw [ih, projectList_nl]
    simp [List.foldl_append]

/-- The plain minimum of a JS-time list (`none` for the empty list). -/
def minJT : List JTime → Option JTime
  | [] => none
  | c :: cs => some (cs.foldl (fun v c => if JTime.ltb c v then c else v) c)

theorem foldl_minStep_mem (cs : List JTime) :
    ∀ v : JTime, cs.foldl (fun v c => if JTime.ltb c v then c else v) v = v ∨
      cs.foldl (fun v c => if JTime.ltb c v then c else v) v ∈ cs := by
  induction cs with
  | nil => intro v; exact Or.inl rfl
  | cons c cs ih =>
    intro v
    rw [List.foldl_cons]
    by_cases hlt : JTime.ltb c v
    · rcases ih (if JTime.ltb c v then c else v) with h | h
      · right
        rw [h, if_pos hlt]
        simp
      · right
        simp [h]
    · rcases ih (if JTime.ltb c v then c else v) with h | h
      · left
        rw [h, if_neg hlt]
    -- wait: if not ltb, fold start is v, result v or ∈ cs
      · right
        simp [h]

theorem minJT_mem (L : List JTime) (v : JTime) (h : minJT L = some v) : v ∈ L := by
  cases L with
  | nil => simp [minJT] at h
  | cons c cs =>
    simp only [minJT, Option.some.injEq] at h
    rcases foldl_minStep_mem cs c with h' | h'
    · rw [h'] at h
      simp [← h]
    · rw [← h]
      simp [h']

/-- Folding `nlUpdate` from a set accumulator that is never the falsy
numeric time `0` computes the running minimum. -/
theorem nlFold_some (cs : List JTime) :
    ∀ v : JTime, v ≠ .fin 0 → (∀ c ∈ cs, c ≠ .fin 0) →
      cs.foldl nlUpdate (some v) =
        some (cs.foldl (fun v c => if JTime.ltb c v then c else v) v) := by
  induction cs with
  | nil => intro v _ _; rfl
  | cons c cs ih =>
    intro v hv hcs
    rw [List.foldl_cons, List.foldl_cons]
    have hstep : nlUpdate (some v) c = some (if JTime.ltb c v then c else v) := by
      simp only [nlUpdate, if_neg hv]
      by_cases hlt : JTime.ltb c v
      · simp [hlt]
      · simp [hlt]
    rw [hstep]
    by_cases hlt : JTime.ltb c v
    · rw [if_pos hlt]
      exact ih c (hcs c (by simp)) (fun x hx => hcs x (by simp [hx]))
    · rw [if_neg hlt]
      exact ih v hv (fun x hx => hcs x (by simp [hx]))

/-- Folding `nlUpdate` over candidates none of which is the numeric time
`0` computes their minimum. -/
theorem nlFold_eq_minJT (L : List JTime) (hq : JTime.fin 0 ∉ L) :
    L.foldl nlUpdate none = minJT L := by
  cases L with
  | nil => rfl
  | cons c cs =>
    rw [List.foldl_cons]
    have h1 : nlUpdate none c = some c := rfl
    rw [h1, minJT]
    exact nlFold_some cs c (fun he => hq (by simp [← he]))
      (fun x hx he => hq (by simp [← he, hx]))

theorem nlFinalize_minJT (L : List JTime) (hq : JTime.fin 0 ∉ L) :
    nlFinalize (minJT L) = minJT L := by
  cases hL : minJT L with
  | none => rfl
  | some v =>
    have hv : v ∈ L := minJT_mem L v hL
    have hne : v ≠ .fin 0 := fun he => hq (he ▸ hv)
    cases v with
    | inf => rfl
    | fin q =>
      have hq0 : q ≠ 0 := by
        intro h0
        exact hne (by rw [h0])
      simp [nlFinalize, hq0]

/-- C9 (amended): after `project(s, t)` the snapshot's `nextNonlinearity`
is the minimum over all lists of the nonlinearity candidates (each list's
debt payoff moment and each unfunded item's projected funding moment),
provided no candidate is the numeric time `0` (which JS falsiness treats
as unset); it is `null` — not the sentinel `"never"` — when no candidate
exists, and it is `"never"` (`Infinity`) when the earliest candidate is
infinite, e.g. an unfunded item under a zero budget rate, which projects
without crashing. -/
theorem nextNonlinearity_minimal (s : Snapshot) (time0 t : ℚ)
    (hs : s.time = some time0)
    (hq : JTime.fin 0 ∉ (s.lists.map (nlCandidates time0 t)).join) :
    (projection s t).nextNonlinearity =
      minJT ((s.lists.map (nlCandidates time0 t)).join) := by
  show (mutatingProjection s t).nextNonlinearity = _
  rw [mutatingProjection_eq s t time0 hs]
  show nlFinalize (projListsF time0 t none s.lists).2 = _
  rw [projListsF_nl, nlFold_eq_minJT _ hq, nlFinalize_minJT _ hq]

/-- Fully-funded item of the C9 counterexample. -/
def cexItemC9 : Item :=
  { id := 2
    name := some "done"
    price := some 10
    saved := some ⟨10, 0⟩
    note := none
    expectedDate := none }

/-- The list of the C9 counterexample snapshot. -/
def cexListC9 : BudgetList :=
  { id := 1
    name := some "wish"
    items := some [cexItemC9]
    budget := some ⟨5, .day⟩
    kitty := some ⟨0, 0⟩
    purchaseHistory := some [] }

def cexSnapC9 : Snapshot :=
  { id := 0
    lists := [cexListC9]
    time := some 0
    nextNonlinearity := none
    hash := Hash.empty }

/-- C9 counterexample: a snapshot with every item fully funded and no
debt has no future discontinuity, yet projection yields
`nextNonlinearity = null` (`none`), not the claimed sentinel `"never"`
(`Infinity`). -/
theorem nextNonlinearity_minimal_cex :
    (projection cexSnapC9 86400000).nextNonlinearity = none ∧
    (none : Option JTime) ≠ some JTime.inf := by
  constructor
  · with_unfolding_all decide
  · decide

/-- Zero-rate unfunded item of the C9 witness. -/
def witItemC9 : Item :=
  { id := 2
    name := some "far"
    price := some 10
    saved := some ⟨0, 0⟩
    note := none
    expectedDate := none }

/-- The list of the C9 witness snapshot: zero budget rate, one unfunded
item. -/
def witListC9 : BudgetList :=
  { id := 1
    name := some "wish"
    items := some [witItemC9]
    budget := some ⟨0, .day⟩
    kitty := some ⟨0, 0⟩
    purchaseHistory := some [] }

def witSnapC9 : Snapshot :=
  { id := 0
    lists := [witListC9]
    time := some 0
    nextNonlinearity := none
    hash := Hash.empty }

/-- C9 witness: the amended theorem at a concrete zero-rate snapshot,
whose only candidate is infinite — `nextNonlinearity` is the sentinel
`"never"` and the projection does not crash. -/
theorem nextNonlinearity_minimal_wit :
    (witSnapC9.time = some 0 ∧
      JTime.fin 0 ∉ (witSnapC9.lists.map (nlCandidates 0 86400000)).join) ∧
    (projection witSnapC9 86400000).nextNonlinearity =
      minJT ((witSnapC9.lists.map (nlCandidates 0 86400000)).join) :=
  ⟨⟨rfl, by with_unfolding_all decide⟩,
    nextNonlinearity_minimal witSnapC9 0 86400000 rfl
      (by with_unfolding_all decide)⟩

/-! # Idempotence of the item waterfall -/

theorem advanceBy_advanceBy (r : ℚ) (c : JTime) (a b : ℚ) :
    advanceBy r (advanceBy r c a) b = advanceBy r c (a + b) := by
  by_cases hr : r = 0
  · cases c <;> simp [advanceBy, hr, JTime.add]
  · cases c <;> simp [advanceBy, hr, JTime.add, div_add_div_same, add_assoc]

theorem advanceBy_zero_amount (r : ℚ) (hr : r ≠ 0) (c : JTime) :
    advanceBy r c 0 = c := by
  cases c <;> simp [advanceBy, hr, JTime.add]

theorem advanceBy_rate_zero (c : JTime) (a : ℚ) :
    advanceBy 0 c a = JTime.inf := by
  cases c <;> simp [advanceBy, JTime.add]

@[simp] theorem itemCost_fundedItem (x : Item) : itemCost (fundedItem x) = 0 := by
  simp [itemCost, fundedItem, priceD, savedD]

@[simp] theorem fundedItem_fundedItem (x : Item) :
    fundedItem (fundedItem x) = fundedItem x := by
  simp [fundedItem, priceD]

@[simp] theorem itemCost_unfundedItem (m o : ℚ) (c : JTime) (x : Item) :
    itemCost (unfundedItem m o c x) = itemCost x - m := by
  simp [itemCost, unfundedItem, priceD, savedD]
  ring

theorem unfundedItem_absorb (m o : ℚ) (c : JTime) (x : Item) :
    unfundedItem 0 o c (unfundedItem m o c x) = unfundedItem m o c x := by
  simp [unfundedItem, savedD, priceD]

/-- `foldl_projectItem_master` specialised to a one-item accumulator:
pull the item out in front and re-base the accumulator. -/
theorem foldl_projectItem_cons_acc (r : ℚ) (items : List Item) (a : Item)
    (m o : ℚ) (c : JTime) (nl : Option JTime) :
    items.foldl (projectItem r) ⟨[a], m, o, c, nl⟩ =
      { items := a :: (items.foldl (projectItem r) ⟨[], m, o, c, none⟩).items
        remainingMoneyToAllocate :=
          (items.foldl (projectItem r) ⟨[], m, o, c, none⟩).remainingMoneyToAllocate
        overflowRate := (items.foldl (projectItem r) ⟨[], m, o, c, none⟩).overflowRate
        timeCursor := (items.foldl (projectItem r) ⟨[], m, o, c, none⟩).timeCursor
        nl := ((items.foldl (projectItem r) ⟨[], m, o, c, none⟩).items.filterMap
          Item.expectedDate).foldl nlUpdate nl } := by
  rw [foldl_projectItem_master r items [a] m o c nl]
  simp [List.singleton_append]

/-- Re-run the waterfall over an accumulator's emitted items, with the
leftover pool, a fresh overflow rate and a fresh cursor (what the second
projection of the same list does). -/
def reproject (r o : ℚ) (c₂ : JTime) (acc : ItemAcc) : ItemAcc :=
  acc.items.foldl (projectItem r)
    ⟨[], acc.remainingMoneyToAllocate, o, c₂, none⟩

/-- Phase-two idempotence: re-running the waterfall over items emitted
from a zero pool and zero overflow, from the same cursor, reproduces the
whole accumulator. -/
theorem foldl_projectItem_idem0 (r : ℚ) (items : List Item) :
    ∀ c : JTime, (∀ x ∈ items, 0 ≤ itemCost x) →
      ((items.foldl (projectItem r) ⟨[], 0, 0, c, none⟩).items).foldl (projectItem r)
          ⟨[], 0, 0, c, none⟩ =
        items.foldl (projectItem r) ⟨[], 0, 0, c, none⟩ := by
  induction items with
  | nil => intro c _; rfl
  | cons x xs ih =>
    intro c hsv
    have hx : 0 ≤ itemCost x := hsv x (by simp)
    by_cases hb : (0 : ℚ) ≥ itemCost x
    · have hc0 : itemCost x = 0 := le_antisymm hb hx
      rw [List.foldl_cons, projectItem_funded r [] 0 0 c none x hb]
      simp only [List.nil_append, hc0, sub_zero]
      rw [foldl_projectItem_cons_acc]
      dsimp only
      rw [List.foldl_cons, projectItem_funded r [] 0 0 c none (fundedItem x) (by simp)]
      simp only [List.nil_append, fundedItem_fundedItem, itemCost_fundedItem, sub_zero]
      rw [foldl_projectItem_cons_acc,
        ih (advanceBy r c 0) (fun y hy => hsv y (by simp [hy]))]
    · rw [List.foldl_cons, projectItem_unfunded r [] 0 0 c none x hb]
      simp only [List.nil_append]
      rw [foldl_projectItem_cons_acc]
      dsimp only
      rw [List.foldl_cons,
        projectItem_unfunded r [] 0 0 c none
          (unfundedItem 0 0 (advanceBy r c (itemCost x)) x)
          (by simp only [itemCost_unfundedItem, sub_zero]; exact hb)]
      simp only [List.nil_append, itemCost_unfundedItem, sub_zero, unfundedItem_absorb]
      rw [foldl_projectItem_cons_acc,
        ih (advanceBy r c (itemCost x)) (fun y hy => hsv y (by simp [hy]))]

/-- Phase-one idempotence: re-running the waterfall over the emitted
items with the leftover pool, the same overflow rate and a cursor linked
by `advanceBy r c₁ m = c₂` reproduces the emitted items, the leftover
pool and the final overflow rate. -/
theorem foldl_projectItem_idemA (r o : ℚ) (items : List Item) :
    ∀ (m : ℚ) (c₁ c₂ : JTime), 0 ≤ m → (∀ x ∈ items, 0 ≤ itemCost x) →
      (r = 0 → m = 0) → (r ≠ 0 → advanceBy r c₁ m = c₂) →
      (reproject r o c₂ (items.foldl (projectItem r) ⟨[], m, o, c₁, none⟩)).items =
        (items.foldl (projectItem r) ⟨[], m, o, c₁, none⟩).items ∧
      (reproject r o c₂
          (items.foldl (projectItem r) ⟨[], m, o, c₁, none⟩)).remainingMoneyToAllocate =
        (items.foldl (projectItem r) ⟨[], m, o, c₁, none⟩).remainingMoneyToAllocate ∧
      (reproject r o c₂ (items.foldl (projectItem r) ⟨[], m, o, c₁, none⟩)).overflowRate =
        (items.foldl (projectItem r) ⟨[], m, o, c₁, none⟩).overflowRate := by
  induction items with
  | nil => intro m c₁ c₂ _ _ _ _; exact ⟨rfl, rfl, rfl⟩
  | cons x xs ih =>
    intro m c₁ c₂ hm hsv h0 hlink
    by_cases hb : m ≥ itemCost x
    · -- the head stays funded in the second run
      rw [List.foldl_cons, projectItem_funded r [] m o c₁ none x hb]
      simp only [List.nil_append]
      rw [foldl_projectItem_cons_acc]
      unfold reproject
      dsimp only
      rw [List.foldl_cons,
        projectItem_funded r []
          ((xs.foldl (projectItem r)
            ⟨[], m - itemCost x, o, advanceBy r c₁ (itemCost x), none⟩).remainingMoneyToAllocate)
          o c₂ none (fundedItem x)
          (by simp only [itemCost_fundedItem]
              exact foldl_projectItem_rem_nonneg r xs [] (m - itemCost x) o
                (advanceBy r c₁ (itemCost x)) none (by linarith))]
      simp only [List.nil_append, fundedItem_fundedItem, itemCost_fundedItem, sub_zero]
      rw [foldl_projectItem_cons_acc]
      have hih := ih (m - itemCost x) (advanceBy r c₁ (itemCost x)) (advanceBy r c₂ 0)
        (by linarith)
        (fun y hy => hsv y (by simp [hy]))
        (by intro hr
            have hcx := hsv x (by simp)
            have hm0 := h0 hr
            linarith)
        (by intro hr
            rw [advanceBy_zero_amount r hr c₂, advanceBy_advanceBy, ← hlink hr]
            congr 1
            ring)
      unfold reproject at hih
      obtain ⟨h1, h2, h3⟩ := hih
      dsimp only
      exact ⟨by rw [h1], by rw [h2], by rw [h3]⟩
    · -- the head stays unfunded in the second run
      rw [List.foldl_cons, projectItem_unfunded r [] m o c₁ none x hb]
      simp only [List.nil_append]
      rw [foldl_projectItem_cons_acc]
      unfold reproject
      dsimp only
      obtain ⟨hz1, hz2, _⟩ := foldl_projectItem_zeroPool r xs
        (advanceBy r c₁ (itemCost x)) none (fun y hy => hsv y (by simp [hy]))
      rw [hz1]
      have hcur : advanceBy r c₂ (itemCost x - m) = advanceBy r c₁ (itemCost x) := by
        by_cases hr : r = 0
        · subst hr
          rw [advanceBy_rate_zero, advanceBy_rate_zero]
        · rw [← hlink hr, advanceBy_advanceBy]
          congr 1
          ring
      rw [List.foldl_cons,
        projectItem_unfunded r [] 0 o c₂ none
          (unfundedItem m o (advanceBy r c₁ (itemCost x)) x)
          (by simp only [itemCost_unfundedItem]
              intro hcon
              exact hb (by linarith))]
      simp only [List.nil_append, itemCost_unfundedItem, sub_zero, hcur,
        unfundedItem_absorb]
      rw [foldl_projectItem_cons_acc,
        foldl_projectItem_idem0 r xs (advanceBy r c₁ (itemCost x))
          (fun y hy => hsv y (by simp [hy]))]
      exact ⟨rfl, by rw [hz1], rfl⟩

theorem foldl_projectItem_rem_nl_indep (r : ℚ) (items : List Item) (m o : ℚ)
    (c : JTime) (nl : Option JTime) :
    (items.foldl (projectItem r) ⟨[], m, o, c, nl⟩).remainingMoneyToAllocate =
      (items.foldl (projectItem r) ⟨[], m, o, c, none⟩).remainingMoneyToAllocate := by
  conv_lhs => rw [foldl_projectItem_master]

theorem foldl_projectItem_over_nl_indep (r : ℚ) (items : List Item) (m o : ℚ)
    (c : JTime) (nl : Option JTime) :
    (items.foldl (projectItem r) ⟨[], m, o, c, nl⟩).overflowRate =
      (items.foldl (projectItem r) ⟨[], m, o, c, none⟩).overflowRate := by
  conv_lhs => rw [foldl_projectItem_master]

/-- The projected list record does not depend on the incoming nonlinearity
accumulator. -/
theorem projectList_fst_nl_indep (time0 t : ℚ) (nl : Option JTime) (l : BudgetList) :
    (projectList time0 t nl l).1 = (projectList time0 t none l).1 := by
  rw [projectList_eq, projectList_eq]
  have hi : (projAcc time0 t nl l).items = (projAcc time0 t none l).items := by
    unfold projAcc
    by_cases h : rem0 time0 t l < 0
    · rw [if_pos h, if_pos h]
      conv_lhs => rw [foldl_projectItem_items_nl_indep]
      conv_rhs => rw [foldl_projectItem_items_nl_indep]
    · rw [if_neg h, if_neg h]
      conv_lhs => rw [foldl_projectItem_items_nl_indep]
  have h2 : (projAcc time0 t nl l).remainingMoneyToAllocate =
      (projAcc time0 t none l).remainingMoneyToAllocate := by
    unfold projAcc
    by_cases h : rem0 time0 t l < 0
    · rw [if_pos h, if_pos h]
      conv_lhs => rw [foldl_projectItem_rem_nl_indep]
      conv_rhs => rw [foldl_projectItem_rem_nl_indep]
    · rw [if_neg h, if_neg h]
      conv_lhs => rw [foldl_projectItem_rem_nl_indep]
  have h3 : (projAcc time0 t nl l).overflowRate =
      (projAcc time0 t none l).overflowRate := by
    unfold projAcc
    by_cases h : rem0 time0 t l < 0
    · rw [if_pos h, if_pos h]
      conv_lhs => rw [foldl_projectItem_over_nl_indep]
      conv_rhs => rw [foldl_projectItem_over_nl_indep]
    · rw [if_neg h, if_neg h]
      conv_lhs => rw [foldl_projectItem_over_nl_indep]
  rw [hi, h2, h3]

theorem projectList_items_eq (time0 t : ℚ) (nl : Option JTime) (l : BudgetList) :
    ((projectList time0 t nl l).1).items = some ((projAcc time0 t nl l).items) := by
  rw [projectList_eq]

theorem projectList_kitty_eq (time0 t : ℚ) (nl : Option JTime) (l : BudgetList) :
    ((projectList time0 t nl l).1).kitty =
      some ⟨(projAcc time0 t nl l).remainingMoneyToAllocate -
          (if rem0 time0 t l < 0 then -(rem0 time0 t l) else 0),
        (projAcc time0 t nl l).overflowRate -
          (if rem0 time0 t l < 0 then -(listRate l) else 0)⟩ := by
  rw [projectList_eq]

theorem budgetList_mk_eta (l : BudgetList) (i : ℕ) (n : Option String)
    (it : Option (List Item)) (b : Option BudgetAmount) (k : Option LinearAmount)
    (ph : Option (List PurchaseHistoryItem))
    (hi : i = l.id) (hn : n = l.name) (hit : it = l.items) (hb : b = l.budget)
    (hk : k = l.kitty) (hph : ph = l.purchaseHistory) :
    BudgetList.mk i n it b k ph = l := by
  subst hi
  subst hn
  subst hit
  subst hb
  subst hk
  subst hph
  rfl

/-- One list projection is idempotent for a debt-free list (zero kitty
value, nonnegative rate, items with nonnegative remaining cost): a second
projection to the same target time reproduces the projected list, and the
re-projected list generates the same nonlinearity candidates. -/
theorem projectList_idem (time0 t : ℚ) (l : BudgetList) (ht : time0 ≤ t)
    (hk : (l.kitty.getD ⟨0, 0⟩).value = 0)
    (hr : 0 ≤ getAllocatedRate (l.budget.getD ⟨0, .month⟩))
    (hsv : ∀ i ∈ l.items.getD [], 0 ≤ itemCost i) :
    (∀ nl nl' : Option JTime,
      (projectList t t nl' ((projectList time0 t nl l).1)).1 =
        (projectList time0 t nl l).1) ∧
    nlCandidates t t ((projectList time0 t none l).1) = nlCandidates time0 t l := by
  have hrm : 0 ≤ rateInDollarsPerMs (listRate l) := by
    unfold rateInDollarsPerMs listRate budgetD
    exact div_nonneg hr (by norm_num)
  have hm0 : 0 ≤ rem0 time0 t l := by
    unfold rem0 kittyD
    rw [hk]
    have := mul_nonneg hrm (sub_nonneg.mpr ht)
    linarith
  have hnd : ¬ rem0 time0 t l < 0 := not_lt.mpr hm0
  have hAit := projectList_items_eq time0 t none l
  have hAk := projectList_kitty_eq time0 t none l
  obtain ⟨hid, hname, hbud, hph, _⟩ := projectList_frame time0 t none l
  have hbD : budgetD ((projectList time0 t none l).1) = budgetD l := by
    unfold budgetD
    rw [hbud]
    rfl
  have hrate : listRate ((projectList time0 t none l).1) = listRate l := by
    unfold listRate
    rw [hbD]
  have hiD : itemsD ((projectList time0 t none l).1) = (projAcc time0 t none l).items := by
    unfold itemsD
    rw [hAit]
    rfl
  have hrem_nonneg : 0 ≤ (projAcc time0 t none l).remainingMoneyToAllocate := by
    unfold projAcc
    rw [if_neg hnd]
    exact foldl_projectItem_rem_nonneg (listRate l) (itemsD l) [] (rem0 time0 t l)
      (listRate l) (.fin time0) none hm0
  have hrem2 : rem0 t t ((projectList time0 t none l).1) =
      (projAcc time0 t none l).remainingMoneyToAllocate := by
    unfold rem0 kittyD
    rw [hAk, if_neg hnd]
    simp [hrate]
  have hnd2 : ¬ rem0 t t ((projectList time0 t none l).1) < 0 := by
    rw [hrem2]
    exact not_lt.mpr hrem_nonneg
  have hA : projAcc time0 t none l =
      (itemsD l).foldl (projectItem (listRate l))
        ⟨[], rem0 time0 t l, listRate l, .fin time0, none⟩ := by
    unfold projAcc
    rw [if_neg hnd]
  have hidem := foldl_projectItem_idemA (listRate l) (listRate l) (itemsD l)
    (rem0 time0 t l) (.fin time0) (.fin t) hm0 hsv
    (by
      intro hr0
      show rem0 time0 t l = 0
      unfold rem0 kittyD rateInDollarsPerMs
      rw [hk, hr0]
      norm_num)
    (by
      intro hr0
      show advanceBy (listRate l) (.fin time0) (rem0 time0 t l) = .fin t
      unfold advanceBy
      rw [if_neg hr0]
      show JTime.add (.fin time0) (.fin (rem0 time0 t l / rateInDollarsPerMs (listRate l))) = .fin t
      have hrmne : rateInDollarsPerMs (listRate l) ≠ 0 := by
        unfold rateInDollarsPerMs
        exact div_ne_zero hr0 (by norm_num)
      have hmval : rem0 time0 t l = rateInDollarsPerMs (listRate l) * (t - time0) := by
        unfold rem0 kittyD
        rw [hk]
        ring
      show JTime.fin (time0 + rem0 time0 t l / rateInDollarsPerMs (listRate l)) = .fin t
      rw [hmval, mul_div_cancel_left₀ _ hrmne]
      norm_num)
  rw [← hA] at hidem
  obtain ⟨hB1, hB2, hB3⟩ := hidem
  have hA2 : projAcc t t none ((projectList time0 t none l).1) =
      reproject (listRate l) (listRate l) (.fin t) (projAcc time0 t none l) := by
    rw [show projAcc t t none ((projectList time0 t none l).1) =
        (itemsD ((projectList time0 t none l).1)).foldl
          (projectItem (listRate ((projectList time0 t none l).1)))
          ⟨[], rem0 t t ((projectList time0 t none l).1),
            listRate ((projectList time0 t none l).1), .fin t, none⟩ from by
      unfold projAcc
      rw [if_neg hnd2]]
    rw [hiD, hrate, hrem2]
    rfl
  have main : ∀ nl' : Option JTime,
      (projectList t t nl' ((projectList time0 t none l).1)).1 =
        (projectList time0 t none l).1 := by
    intro nl'
    rw [projectList_fst_nl_indep t t nl']
    conv_lhs => rw [projectList_eq]
    refine budgetList_mk_eta _ _ _ _ _ _ _ rfl ?_ ?_ ?_ ?_ ?_
    · rw [hname]
      simp
    · rw [hA2, hB1, hAit]
    · show some (budgetD ((projectList time0 t none l).1)) = _
      rw [hbD, hbud]
      rfl
    · rw [hA2, hB2, hB3, hAk]
      simp only [if_neg hnd2, if_neg hnd, hrate]
    · rw [hph]
      simp
  refine ⟨?_, ?_⟩
  · intro nl nl'
    rw [projectList_fst_nl_indep time0 t nl l]
    exact main nl'
  · unfold nlCandidates
    rw [main none]
    have hd1 : debtCandidate time0 t l = [] := by
      unfold debtCandidate
      rw [if_neg hnd]
    have hd2 : debtCandidate t t ((projectList time0 t none l).1) = [] := by
      unfold debtCandidate
      rw [if_neg hnd2]
    rw [hd1, hd2]

/-- The outer fold is idempotent and preserves the candidate map, list by
list. -/
theorem projListsF_idem (time0 t : ℚ) (lists : List BudgetList) (ht : time0 ≤ t)
    (hk : ∀ l ∈ lists, (l.kitty.getD ⟨0, 0⟩).value = 0)
    (hr : ∀ l ∈ lists, 0 ≤ getAllocatedRate (l.budget.getD ⟨0, .month⟩))
    (hsv : ∀ l ∈ lists, ∀ i ∈ l.items.getD [], 0 ≤ itemCost i) :
    ∀ nl nl' : Option JTime,
      (projListsF t t nl' ((projListsF time0 t nl lists).1)).1 =
        (projListsF time0 t nl lists).1 ∧
      ((projListsF time0 t nl lists).1).map (nlCandidates t t) =
        lists.map (nlCandidates time0 t) := by
  induction lists with
  | nil => intro nl nl'; exact ⟨rfl, rfl⟩
  | cons l ls ih =>
    intro nl nl'
    obtain ⟨hi, hii⟩ := projectList_idem time0 t l ht (hk l (by simp))
      (hr l (by simp)) (hsv l (by simp))
    have ih' := ih (fun x hx => hk x (by simp [hx])) (fun x hx => hr x (by simp [hx]))
      (fun x hx => hsv x (by simp [hx]))
    constructor
    · simp only [projListsF]
      rw [hi nl nl']
      rw [(ih' (projectList time0 t nl l).2
        (projectList t t nl' ((projectList time0 t nl l).1)).2).1]
    · simp only [projListsF, List.map_cons]
      rw [(ih' (projectList time0 t nl l).2 nl').2]
      rw [show nlCandidates t t ((projectList time0 t nl l).1) =
          nlCandidates t t ((projectList time0 t none l).1) from by
        rw [projectList_fst_nl_indep time0 t nl l]]
      rw [hii]

/-- C3 (amended): projection idempotence — for a snapshot with committed
time `time0 ≤ t` whose lists all have a zero kitty value (no stored
surplus or debt), a nonnegative allocated rate and items with
nonnegative remaining cost, `project(project(s, t), t) = project(s, t)`.
Without these restrictions a second projection changes the snapshot: a
debt payoff moment or an unfunded item's expected date is recomputed
from the new committed time (`projection_idempotent_cex`). -/
theorem projection_idempotent (s : Snapshot) (time0 t : ℚ)
    (hs : s.time = some time0) (ht : time0 ≤ t)
    (hk : ∀ l ∈ s.lists, (l.kitty.getD ⟨0, 0⟩).value = 0)
    (hr : ∀ l ∈ s.lists, 0 ≤ getAllocatedRate (l.budget.getD ⟨0, .month⟩))
    (hsv : ∀ l ∈ s.lists, ∀ i ∈ l.items.getD [], 0 ≤ itemCost i) :
    projection (projection s t) t = projection s t := by
  show mutatingProjection (mutatingProjection s t) t = mutatingProjection s t
  rw [mutatingProjection_eq s t time0 hs, mutatingProjection_eq _ t t rfl]
  obtain ⟨hl, hc⟩ := projListsF_idem time0 t s.lists ht hk hr hsv none none
  have hY : (projListsF t t none ((projListsF time0 t none s.lists).1)).2 =
      (projListsF time0 t none s.lists).2 := by
    rw [projListsF_nl t t _ none, projListsF_nl time0 t s.lists none, hc]
  rw [hl, hY]

/-- C3 counterexample list: a list in debt (kitty value −10 at a $5/day
rate). -/
def cexListC3 : BudgetList :=
  { id := 1
    name := some "w"
    items := some []
    budget := some ⟨5, .day⟩
    kitty := some ⟨-10, 0⟩
    purchaseHistory := some [] }

def cexSnapC3 : Snapshot :=
  { id := 0
    lists := [cexListC3]
    time := some 0
    nextNonlinearity := none
    hash := Hash.empty }

set_option maxRecDepth 2000 in
/-- C3 counterexample: for a snapshot in debt, the second projection to
the same time computes a different (later) debt payoff moment
(`nextNonlinearity` moves one day later), so
`project(project(s, t), t) ≠ project(s, t)`. -/
theorem projection_idempotent_cex :
    projection (projection cexSnapC3 86400000) 86400000 ≠
      projection cexSnapC3 86400000 := by
  intro hcon
  have hfield : (projection (projection cexSnapC3 86400000) 86400000).nextNonlinearity =
      (projection cexSnapC3 86400000).nextNonlinearity := by rw [hcon]
  have : ¬ ((projection (projection cexSnapC3 86400000) 86400000).nextNonlinearity =
      (projection cexSnapC3 86400000).nextNonlinearity) := by
    with_unfolding_all decide
  exact this hfield

/-- C3 witness item. -/
def witItemC3 : Item :=
  { id := 2
    name := some "thing"
    price := some 10
    saved := some ⟨0, 0⟩
    note := none
    expectedDate := none }

/-- C3 witness list: zero kitty, positive rate, one unfunded item. -/
def witListC3 : BudgetList :=
  { id := 1
    name := some "w"
    items := some [witItemC3]
    budget := some ⟨5, .day⟩
    kitty := some ⟨0, 0⟩
    purchaseHistory := some [] }

def witSnapC3 : Snapshot :=
  { id := 0
    lists := [witListC3]
    time := some 0
    nextNonlinearity := none
    hash := Hash.empty }

/-- C3 witness: the amended idempotence theorem at a concrete debt-free
snapshot. -/
theorem projection_idempotent_wit :
    (witSnapC3.time = some 0 ∧ (0 : ℚ) ≤ 86400000 ∧
      (∀ l ∈ witSnapC3.lists, (l.kitty.getD ⟨0, 0⟩).value = 0) ∧
      (∀ l ∈ witSnapC3.lists, 0 ≤ getAllocatedRate (l.budget.getD ⟨0, .month⟩)) ∧
      (∀ l ∈ witSnapC3.lists, ∀ i ∈ l.items.getD [], 0 ≤ itemCost i)) ∧
    projection (projection witSnapC3 86400000) 86400000 =
      projection witSnapC3 86400000 :=
  ⟨⟨rfl, by norm_num, by with_unfolding_all decide, by with_unfolding_all decide,
      by with_unfolding_all decide⟩,
    projection_idempotent witSnapC3 0 86400000 rfl (by norm_num)
      (by with_unfolding_all decide) (by with_unfolding_all decide)
      (by with_unfolding_all decide)⟩

/-! # Hash chain (`calculateActionHash`, `emptyHash`, `historyHash`) -/

/-- The action minus its hash field, i.e. the digested content. -/
def Action.content (a : Action) : ActionContent :=
  ⟨a.id, a.time, a.data⟩

/-- `calculateActionHash` from `app.ts`:
`md5Hash(JSON.stringify([prevActionHash, contentToHash]))`, modelled by the
free chain constructor. -/
def calculateActionHash (prevActionHash : Hash) (a : Action) : Hash :=
  Hash.chain prevActionHash a.content

/-- `emptyHash` from `app.ts` (`md5Hash('')`). -/
def emptyHash : Hash := Hash.empty

/-- `historyHash` from `app.ts`: the hash of the last action, or `emptyHash`
for an empty history. -/
def historyHash (history : List Action) : Hash :=
  match history.getLast? with
  | some a => a.hash
  | none => emptyHash

/-! # Action reducer (`foldAction` in `app.ts`)

The structural effects of the `switch (action.type)` statement.  Every
effect runs after `mutatingProjection`, which populates all optional
fields; the `Option.getD` / `Option.map` accesses below mirror the
source's property accesses on those (then-present) fields. -/

/-- `snapshot.lists.findIndex(list => list.id === listId)` followed by
`splice(index, 1)`: remove the first list with the id, no-op when absent. -/
def removeFirstList (listId : ℕ) : List BudgetList → List BudgetList
  | [] => []
  | l :: ls => if l.id = listId then ls else l :: removeFirstList listId ls

/-- `findList(listId)` followed by a field mutation: rewrite the first list
with the id, no-op when absent. -/
def updateFirstList (listId : ℕ) (f : BudgetList → BudgetList) :
    List BudgetList → List BudgetList
  | [] => []
  | l :: ls => if l.id = listId then f l :: ls else l :: updateFirstList listId f ls

/-- Whether `findItem` would stop at this list: some item of the list has
the given id. -/
def listHasItem (itemId : ℕ) (l : BudgetList) : Bool :=
  (l.items.getD []).any (fun it => it.id = itemId)

/-- The item `findItem(itemId)` returns within one list (the first item
with the id). -/
def findItemInList (itemId : ℕ) (l : BudgetList) : Option Item :=
  (l.items.getD []).find? (fun it => it.id = itemId)

/-- Rewrite the first item with the given id inside one item array. -/
def updateFirstItemInItems (itemId : ℕ) (f : Item → Item) : List Item → List Item
  | [] => []
  | it :: its => if it.id = itemId then f it :: its
                 else it :: updateFirstItemInItems itemId f its

/-- Remove the first item with the given id from one item array
(`list.items.splice(index, 1)` after `indexOf`). -/
def removeFirstItemInItems (itemId : ℕ) : List Item → List Item
  | [] => []
  | it :: its => if it.id = itemId then its else it :: removeFirstItemInItems itemId its

/-- `findItem(itemId)` followed by a mutation of the found item only:
rewrite the first matching item of the first list containing it. -/
def updateFirstItem (itemId : ℕ) (f : Item → Item) : List BudgetList → List BudgetList
  | [] => []
  | l :: ls =>
    if listHasItem itemId l then
      { l with items := l.items.map (updateFirstItemInItems itemId f) } :: ls
    else l :: updateFirstItem itemId f ls

/-- `findItem(itemId)` followed by a mutation that uses both the found item
and its list: rewrite the first list containing the item with `f item
list`. -/
def updateListOfItem (itemId : ℕ) (f : Item → BudgetList → BudgetList) :
    List BudgetList → List BudgetList
  | [] => []
  | l :: ls =>
    if listHasItem itemId l then
      (match findItemInList itemId l with
       | some it => f it l
       | none => l) :: ls
    else l :: updateListOfItem itemId f ls

/-- JS `array.splice(index, 0, x)`: insert at the index, clamped to the end
of the array. -/
def insertAt (n : ℕ) (x : α) : List α → List α
  | l => match n, l with
    | 0, l => x :: l
    | _ + 1, [] => [x]
    | n + 1, y :: l => y :: insertAt n x l

/-- Replace the list at a position (used by the `ItemMove` effect, which
addresses the source and target lists positionally through aliased object
references in the source). -/
def modifyAt (n : ℕ) (f : α → α) : List α → List α
  | [] => []
  | y :: l => match n with
    | 0 => f y :: l
    | n + 1 => y :: modifyAt n f l

/-- The `ItemMove` effect: find the source item and the target list; clamp
the target index to `[0, targetList.items.length - 1]` (measured before the
removal, as in the source); splice the item out of its list and into the
target. -/
def itemMoveEffect (itemId targetListId : ℕ) (targetIndex : ℤ)
    (lists : List BudgetList) : List BudgetList :=
  match lists.findIdx? (fun l => listHasItem itemId l),
        lists.findIdx? (fun l => l.id = targetListId) with
  | some si, some ti =>
    match (lists.get? si).bind (findItemInList itemId) with
    | some item =>
      let targetLen := (((lists.get? ti).map (fun l => (l.items.getD []).length)).getD 0 : ℕ)
      let clamped := (max (min targetIndex ((targetLen : ℤ) - 1)) 0).toNat
      let removed := modifyAt si
        (fun l => { l with items := l.items.map (removeFirstItemInItems itemId) }) lists
      modifyAt ti (fun l => { l with items := l.items.map (insertAt clamped item) }) removed
    | none => lists
  | _, _ => lists

/-- The structural effect of one action on the (already projected) snapshot:
the body of the `switch (action.type)` statement of `foldAction`, minus the
`Undo`/`Redo` cases (on which the source's producer throws — see
`foldActionE` below). -/
def applyEffect (snapshot : Snapshot) (action : Action) : Snapshot :=
  match action.data with
  | .newState =>
    { snapshot with id := action.id, time := some action.time, lists := [] }
  | .migrateState stateId mlists mtime mnl mhash =>
    -- Object.assign(snapshot, deepClone(action.state)) overwrites id, lists,
    -- time and nextNonlinearity; then snapshot.time = action.time.  The hash
    -- is overwritten only when the legacy payload carries one: deepClone is a
    -- JSON round trip, so an absent hash field is not copied by Object.assign
    -- and the draft keeps the hash the fold already wrote into it.
    { snapshot with
      id := stateId
      lists := mlists
      time := some action.time
      nextNonlinearity := mnl
      hash := match mhash with
        | some code => Hash.legacy (some code)
        | none => snapshot.hash }
  | .listNew name =>
    let newList : BudgetList :=
      { id := action.id
        name := some name
        items := some []
        budget := some ⟨0, .month⟩
        kitty := some ⟨0, 0⟩
        purchaseHistory := some [] }
    { snapshot with lists := snapshot.lists ++ [newList] }
  | .listDelete listId =>
    { snapshot with lists := removeFirstList listId snapshot.lists }
  | .listSetName listId newName =>
    let lists' := updateFirstList listId
      (fun l => { l with name := some newName }) snapshot.lists
    { snapshot with lists := lists' }
  | .listSetBudget listId budget =>
    -- Object.assign(list.budget, action.budget) replaces both fields.
    let lists' := updateFirstList listId
      (fun l => { l with budget := some budget }) snapshot.lists
    { snapshot with lists := lists' }
  | .listInjectMoney listId amount =>
    let lists' := updateFirstList listId
      (fun l =>
        let k := l.kitty.getD ⟨0, 0⟩
        { l with kitty := some { k with value := k.value + amount } })
      snapshot.lists
    { snapshot with lists := lists' }
  | .itemNew listId =>
    -- findList(listId)?.items?.push({ id: action.id, name: undefined,
    --   price: 0, saved: { value: 0, rate: 0 } })
    let newItem : Item :=
      { id := action.id
        name := none
        price := some 0
        saved := some ⟨0, 0⟩
        note := none
        expectedDate := none }
    let lists' := updateFirstList listId
      (fun l => { l with items := l.items.map (fun its => its ++ [newItem]) })
      snapshot.lists
    { snapshot with lists := lists' }
  | .itemMove itemId targetListId targetIndex =>
    { snapshot with lists := itemMoveEffect itemId targetListId targetIndex snapshot.lists }
  | .itemDelete itemId =>
    let lists' := updateListOfItem itemId
      (fun item l =>
        let k := l.kitty.getD ⟨0, 0⟩
        { l with
          items := l.items.map (removeFirstItemInItems itemId)
          kitty := some { k with value := k.value + (item.saved.getD ⟨0, 0⟩).value } })
      snapshot.lists
    { snapshot with lists := lists' }
  | .itemSetName itemId name =>
    let lists' := updateFirstItem itemId
      (fun it => { it with name := some name }) snapshot.lists
    { snapshot with lists := lists' }
  | .itemSetPrice itemId price =>
    -- item.price = action.price; excess saved money is clawed back into the
    -- kitty when the new price is below the current saved value.
    let lists' := updateListOfItem itemId
      (fun item l =>
        let saved := item.saved.getD ⟨0, 0⟩
        if price < saved.value then
          let k := l.kitty.getD ⟨0, 0⟩
          { l with
            items := l.items.map (updateFirstItemInItems itemId
              (fun it => { it with
                price := some price
                saved := some { saved with value := price } }))
            kitty := some { k with value := k.value + (saved.value - price) } }
        else
          { l with items := l.items.map (updateFirstItemInItems itemId
              (fun it => { it with price := some price })) })
      snapshot.lists
    { snapshot with lists := lists' }
  | .itemSetNote itemId note =>
    let lists' := updateFirstItem itemId
      (fun it => { it with note := some note }) snapshot.lists
    { snapshot with lists := lists' }
  | .itemPurchase itemId actualPrice =>
    let lists' := updateListOfItem itemId
      (fun item l =>
        let k := l.kitty.getD ⟨0, 0⟩
        let purchase : PurchaseHistoryItem :=
          { id := item.id
            name := item.name
            priceEstimate := item.price.getD 0
            price := actualPrice
            purchaseDate := action.time }
        { l with
          kitty := some { k with value :=
            k.value + ((item.saved.getD ⟨0, 0⟩).value - actualPrice) }
          purchaseHistory := l.purchaseHistory.map (fun ph => ph ++ [purchase])
          items := l.items.map (removeFirstItemInItems itemId) })
      snapshot.lists
    { snapshot with lists := lists' }
  | .itemRedistributeMoney itemId =>
    let lists' := updateListOfItem itemId
      (fun item l =>
        let k := l.kitty.getD ⟨0, 0⟩
        { l with
          kitty := some { k with value := k.value + (item.saved.getD ⟨0, 0⟩).value }
          items := l.items.map (updateFirstItemInItems itemId
            (fun it =>
              let sv := it.saved.getD ⟨0, 0⟩
              { it with saved := some { sv with value := 0 } })) })
      snapshot.lists
    { snapshot with lists := lists' }
  | .undo _ => snapshot
  | .redo _ => snapshot


/-! # Action log builder (`reduceActions` in `app.ts`) -/

/-- One step of the skip-set pass of `reduceActions`: an `Undo` adds its own
id and its target; a `Redo` adds its own id and removes its target; every
other action leaves the set unchanged. -/
def skipStep (skip : Finset ℕ) (a : Action) : Finset ℕ :=
  match a.data with
  | .undo target => insert target (insert a.id skip)
  | .redo target => (insert a.id skip).erase target
  | _ => skip

/-- The first pass of `reduceActions`: tally the `Undo`/`Redo` actions in
order into the skip set of action ids whose structural effect is
suppressed. -/
def computeSkip (actions : List Action) : Finset ℕ :=
  actions.foldl skipStep ∅

/-- `emptyState` from `app.ts`. -/
def emptyState : Snapshot :=
  { id := 0, time := some 0, nextNonlinearity := some .inf,
    lists := [], hash := emptyHash }

/-- One fold step of `reduceActions` for each remaining action, i.e. the
body of `foldAction` inlined into the `actions.reduce(...)` call of the
source.  `done` is the accumulated prior-action list (the source grows it
with `push` after each fold), the final argument the remaining actions.
Each step: set the hash, stop there when the action's id is in the skip
set, otherwise project, apply the structural effect and project again.
For an unskipped `Undo`/`Redo` the source computes
`reduceActions([...prevActions, action])` and returns it from an immer
producer whose draft was already modified by the hash write, so the
source never yields a snapshot there: immer throws its
modified-draft-and-returned-value error (and an unskipped `Undo`/`Redo`
in the last position can only be a self-targeting `Redo` — see
`computeSkip_concat_undo_mem` — on which the rebuild recurses forever
before the producer can even return).  This total model instead performs
the rebuild via the `undoHandler` parameter mid-history (instantiated to
the recursive call in `reduceActionsF`; the parameter keeps the recursion
structural) and maps the dead last-position branch to the skip
behaviour, so it matches the source exactly on the runs that never reach
an unskipped `Undo`/`Redo`.  `reduceRunE` below makes the failure
explicit, and `reduceRunE_ok_run` shows the two agree whenever the source
returns at all; theorems about the reducer carry the corresponding `.ok`
hypothesis. -/
def reduceRun (undoHandler : List Action → Action → Snapshot) (skip : Finset ℕ)
    (snapshot : Snapshot) (done : List Action) : List Action → Snapshot
  | [] => snapshot
  | action :: rest' =>
    let s :=
      if action.id ∈ skip then { snapshot with hash := action.hash }
      else
        match action.data, rest' with
        | .undo _, _ :: _ => undoHandler done action
        | .redo _, _ :: _ => undoHandler done action
        | .undo _, [] => { snapshot with hash := action.hash }
        | .redo _, [] => { snapshot with hash := action.hash }
        | _, _ =>
          let time := action.time
          let projected := mutatingProjection { snapshot with hash := action.hash } time
          mutatingProjection (applyEffect projected action) time
    reduceRun undoHandler skip s (done ++ [action]) rest'

/-- `reduceActions` with an explicit structural bound on the nesting depth
of the `Undo`/`Redo` rebuilds: each rebuild replays a strictly shorter
history, so any fuel exceeding the history length is enough
(`reduceActionsF_congr` below); the fuel only exists to make the recursion
structural. -/
def reduceActionsF : ℕ → List Action → Snapshot
  | 0, _ => emptyState
  | fuel + 1, actions =>
    reduceRun (fun done action => reduceActionsF fuel (done ++ [action]))
      (computeSkip actions) emptyState [] actions

/-- `reduceActions` from `app.ts`: compute the skip set in a first pass,
then fold the actions over `emptyState` with `foldAction`-style steps.
The lemma `reduceActions_eq_run` below recovers the defining equation of
the source (with the `Undo`/`Redo` rebuilds calling `reduceActions`
itself). -/
def reduceActions (actions : List Action) : Snapshot :=
  reduceActionsF (actions.length + 1) actions

/-- `foldAction` from `app.ts`, totalised: incorporate the action's hash,
then (unless `skipEffect`) project the snapshot to the action's time, apply
the structural effect, and project again.  The `Undo`/`Redo` cases of the
source `return reduceActions([...prevActions, action])` from inside an
immer producer whose draft was already modified by the hash write, so the
source throws immer's error there instead of returning the rebuild; this
total version keeps the rebuilt value for those cases and agrees with the
source exactly when the source does not throw (`skipEffect`, or a payload
that is not an `Undo`/`Redo`) — `foldActionE` below is the model with the
failure explicit. -/
def foldAction (snapshot : Snapshot) (action : Action) (prevActions : List Action)
    (skipEffect : Bool) : Snapshot :=
  let snapshot := { snapshot with hash := action.hash }
  if skipEffect then snapshot
  else
    let time := action.time
    let projected := mutatingProjection snapshot time
    match action.data with
    | .undo _ => reduceActions (prevActions ++ [action])
    | .redo _ => reduceActions (prevActions ++ [action])
    | _ => mutatingProjection (applyEffect projected action) time

/-! # Classification helpers for action payloads -/

/-- Whether the payload is a `MigrateState` (the only effect that overwrites
the fold hash, with the embedded legacy hash). -/
def isMigrate : ActionData → Bool
  | .migrateState .. => true
  | _ => false

/-- Whether the payload is a `MigrateState` whose embedded legacy state
carries a hash field — the only case in which `applyEffect` overwrites the
fold hash (a payload without the field leaves the hash alone, see the
comment at the `migrateState` case of `applyEffect`). -/
def carriesLegacyHash : ActionData → Bool
  | .migrateState _ _ _ _ (some _) => true
  | _ => false

/-- Whether the payload is an `Undo` or a `Redo`. -/
def isUndoRedo : ActionData → Bool
  | .undo _ => true
  | .redo _ => true
  | _ => false

/-- No `Redo` action of the history targets its own id.  On such an action
the source's `reduceActions` would recurse forever (the skip-set pass
un-skips the `Redo` itself, whose fold then rebuilds the same history); the
model maps that dead branch to the skip behaviour, so theorems about
`reduceActions` carry this hypothesis to stay within the domain where the
source terminates. -/
def selfRedoFree (actions : List Action) : Bool :=
  actions.all (fun a =>
    match a.data with
    | .redo target => target != a.id
    | _ => true)

/-! # The fold as the source executes it: a producer that can throw -/

/-- One fold step of `reduceActions`, with the source's failure made
explicit.  `foldAction` is an immer `produce` callback: it first writes
`action.hash` into its draft, and the `Undo`/`Redo` cases then `return
reduceActions([...prevActions, action])` — a fresh object.  immer rejects a
producer that both modifies its draft and returns a new value, so an
unskipped `Undo`/`Redo` never yields a snapshot: the initial hash write
makes that `return` throw (and a `Redo` targeting its own id would recurse
forever in the rebuild before the producer could return).  This model
returns `Except.error ()` on exactly those inputs and the computed snapshot
everywhere else; the rebuilt prefix the source computes and then discards
when immer throws cannot affect the result, so the `prevActions` argument
is dropped. -/
def foldActionE (snapshot : Snapshot) (action : Action) (skipEffect : Bool) :
    Except Unit Snapshot :=
  let snapshot := { snapshot with hash := action.hash }
  if skipEffect then .ok snapshot
  else
    let time := action.time
    let projected := mutatingProjection snapshot time
    match action.data with
    | .undo _ => .error ()
    | .redo _ => .error ()
    | _ => .ok (mutatingProjection (applyEffect projected action) time)

/-- The `actions.reduce` pass of `reduceActions` over `foldActionE`: the
first error (an unskipped `Undo`/`Redo`) aborts the whole fold, exactly as
the immer exception aborts the source's `reduceActions`. -/
def reduceRunE (skip : Finset ℕ) : Snapshot → List Action → Except Unit Snapshot
  | s, [] => .ok s
  | s, a :: rest =>
    match foldActionE s a (decide (a.id ∈ skip)) with
    | .ok s' => reduceRunE skip s' rest
    | .error e => .error e

/-- `reduceActions` with the source's failure made explicit: compute the
skip set in a first pass, then fold the actions over `emptyState`.  The
result is `.ok` exactly on the histories for which the source's
`reduceActions` returns a snapshot — those whose every `Undo`/`Redo` lands
in the skip set. -/
def reduceActionsE (actions : List Action) : Except Unit Snapshot :=
  reduceRunE (computeSkip actions) emptyState actions

instance : DecidableEq (Except Unit Snapshot) := fun x y =>
  match x, y with
  | .ok a, .ok b => decidable_of_iff (a = b) (by simp)
  | .ok _, .error _ => .isFalse (by simp)
  | .error _, .ok _ => .isFalse (by simp)
  | .error a, .error b => decidable_of_iff (a = b) (by simp)

theorem foldActionE_skip (s : Snapshot) (a : Action) :
    foldActionE s a true = .ok { s with hash := a.hash } := rfl

theorem foldActionE_effect (s : Snapshot) (a : Action)
    (hur : isUndoRedo a.data = false) :
    foldActionE s a false =
      .ok (mutatingProjection
        (applyEffect (mutatingProjection { s with hash := a.hash } a.time) a) a.time) := by
  obtain ⟨aid, atime, ad, ahash⟩ := a
  cases ad
  case undo => simp [isUndoRedo] at hur
  case redo => simp [isUndoRedo] at hur
  all_goals rfl

theorem foldActionE_undoredo (s : Snapshot) (a : Action)
    (hur : isUndoRedo a.data = true) :
    foldActionE s a false = .error () := by
  obtain ⟨aid, atime, ad, ahash⟩ := a
  cases ad
  case undo => rfl
  case redo => rfl
  all_goals simp [isUndoRedo] at hur

theorem reduceRunE_nil (skip : Finset ℕ) (s : Snapshot) :
    reduceRunE skip s [] = .ok s := rfl

theorem reduceRunE_cons (skip : Finset ℕ) (s : Snapshot) (a : Action)
    (rest : List Action) :
    reduceRunE skip s (a :: rest) =
      match foldActionE s a (decide (a.id ∈ skip)) with
      | .ok s' => reduceRunE skip s' rest
      | .error e => .error e := rfl

theorem reduceRunE_cons_mem (skip : Finset ℕ) (s : Snapshot) (a : Action)
    (rest : List Action) (h : a.id ∈ skip) :
    reduceRunE skip s (a :: rest) =
      reduceRunE skip { s with hash := a.hash } rest := by
  rw [reduceRunE_cons, decide_eq_true h, foldActionE_skip]

theorem reduceRunE_cons_effect (skip : Finset ℕ) (s : Snapshot) (a : Action)
    (rest : List Action) (h : a.id ∉ skip) (hur : isUndoRedo a.data = false) :
    reduceRunE skip s (a :: rest) =
      reduceRunE skip (mutatingProjection
        (applyEffect (mutatingProjection { s with hash := a.hash } a.time) a) a.time)
        rest := by
  rw [reduceRunE_cons, decide_eq_false h, foldActionE_effect s a hur]

theorem reduceRunE_cons_undoredo (skip : Finset ℕ) (s : Snapshot) (a : Action)
    (rest : List Action) (h : a.id ∉ skip) (hur : isUndoRedo a.data = true) :
    reduceRunE skip s (a :: rest) = .error () := by
  rw [reduceRunE_cons, decide_eq_false h, foldActionE_undoredo s a hur]

/-! # Missing-reference analysis of the effects -/

theorem removeFirstList_id (listId : ℕ) :
    ∀ lists : List BudgetList, (∀ l ∈ lists, l.id ≠ listId) →
      removeFirstList listId lists = lists := by
  intro lists
  induction lists with
  | nil => intro _; rfl
  | cons l ls ih =>
    intro h
    simp only [removeFirstList, if_neg (h l (by simp))]
    rw [ih (fun x hx => h x (by simp [hx]))]

theorem updateFirstList_id (listId : ℕ) (f : BudgetList → BudgetList) :
    ∀ lists : List BudgetList, (∀ l ∈ lists, l.id ≠ listId) →
      updateFirstList listId f lists = lists := by
  intro lists
  induction lists with
  | nil => intro _; rfl
  | cons l ls ih =>
    intro h
    simp only [updateFirstList, if_neg (h l (by simp))]
    rw [ih (fun x hx => h x (by simp [hx]))]

theorem updateFirstItem_id (itemId : ℕ) (f : Item → Item) :
    ∀ lists : List BudgetList, (∀ l ∈ lists, listHasItem itemId l = false) →
      updateFirstItem itemId f lists = lists := by
  intro lists
  induction lists with
  | nil => intro _; rfl
  | cons l ls ih =>
    intro h
    have hl : ¬ (listHasItem itemId l = true) := by simp [h l (by simp)]
    simp only [updateFirstItem, if_neg hl]
    rw [ih (fun x hx => h x (by simp [hx]))]

theorem updateListOfItem_id (itemId : ℕ) (f : Item → BudgetList → BudgetList) :
    ∀ lists : List BudgetList, (∀ l ∈ lists, listHasItem itemId l = false) →
      updateListOfItem itemId f lists = lists := by
  intro lists
  induction lists with
  | nil => intro _; rfl
  | cons l ls ih =>
    intro h
    have hl : ¬ (listHasItem itemId l = true) := by simp [h l (by simp)]
    simp only [updateListOfItem, if_neg hl]
    rw [ih (fun x hx => h x (by simp [hx]))]

theorem findIdx?_none_of_all_false {α : Type} (p : α → Bool) (l : List α)
    (h : ∀ x ∈ l, p x = false) : l.findIdx? p = none := by
  rw [List.findIdx?_eq_none_iff]
  intro x hx
  simp [h x hx]

theorem itemMoveEffect_id (itemId targetListId : ℕ) (targetIndex : ℤ)
    (lists : List BudgetList)
    (h : (∀ l ∈ lists, listHasItem itemId l = false) ∨
      (∀ l ∈ lists, l.id ≠ targetListId)) :
    itemMoveEffect itemId targetListId targetIndex lists = lists := by
  rcases h with h | h
  · unfold itemMoveEffect
    rw [findIdx?_none_of_all_false _ _ h]
  · unfold itemMoveEffect
    rw [findIdx?_none_of_all_false (fun l => l.id = targetListId) lists
      (fun x hx => by simp [h x hx])]
    rcases lists.findIdx? (fun l => listHasItem itemId l) with _ | si <;> rfl

/-- The referenced list or item of a list- or item-referencing action is
absent from the snapshot (the claim's premise).  `False` for the
non-referencing payloads (`New`, `MigrateState`, `ListNew`, `Undo`,
`Redo`), which the claim does not cover. -/
def refMissing (a : Action) (s : Snapshot) : Prop :=
  match a.data with
  | .listDelete listId => ∀ l ∈ s.lists, l.id ≠ listId
  | .listSetName listId _ => ∀ l ∈ s.lists, l.id ≠ listId
  | .listSetBudget listId _ => ∀ l ∈ s.lists, l.id ≠ listId
  | .listInjectMoney listId _ => ∀ l ∈ s.lists, l.id ≠ listId
  | .itemNew listId => ∀ l ∈ s.lists, l.id ≠ listId
  | .itemMove itemId targetListId _ =>
      (∀ l ∈ s.lists, listHasItem itemId l = false) ∨
      (∀ l ∈ s.lists, l.id ≠ targetListId)
  | .itemDelete itemId => ∀ l ∈ s.lists, listHasItem itemId l = false
  | .itemSetName itemId _ => ∀ l ∈ s.lists, listHasItem itemId l = false
  | .itemSetPrice itemId _ => ∀ l ∈ s.lists, listHasItem itemId l = false
  | .itemSetNote itemId _ => ∀ l ∈ s.lists, listHasItem itemId l = false
  | .itemPurchase itemId _ => ∀ l ∈ s.lists, listHasItem itemId l = false
  | .itemRedistributeMoney itemId => ∀ l ∈ s.lists, listHasItem itemId l = false
  | _ => False

/-- An action whose referenced list or item is absent has no structural
effect: `applyEffect` returns the snapshot unchanged. -/
theorem applyEffect_refMissing (s : Snapshot) (a : Action)
    (h : refMissing a s) : applyEffect s a = s := by
  obtain ⟨ai, at', ad, ah⟩ := a
  cases ad with
  | listDelete lid =>
    simp only [refMissing] at h
    simp only [applyEffect]
    rw [removeFirstList_id _ _ h]
  | listSetName lid nm =>
    simp only [refMissing] at h
    simp only [applyEffect]
    rw [updateFirstList_id _ _ _ h]
  | listSetBudget lid b =>
    simp only [refMissing] at h
    simp only [applyEffect]
    rw [updateFirstList_id _ _ _ h]
  | listInjectMoney lid amt =>
    simp only [refMissing] at h
    simp only [applyEffect]
    rw [updateFirstList_id _ _ _ h]
  | itemNew lid =>
    simp only [refMissing] at h
    simp only [applyEffect]
    rw [updateFirstList_id _ _ _ h]
  | itemMove iid tid tix =>
    simp only [refMissing] at h
    simp only [applyEffect]
    rw [itemMoveEffect_id _ _ _ _ h]
  | itemDelete iid =>
    simp only [refMissing] at h
    simp only [applyEffect]
    rw [updateListOfItem_id _ _ _ h]
  | itemSetName iid nm =>
    simp only [refMissing] at h
    simp only [applyEffect]
    rw [updateFirstItem_id _ _ _ h]
  | itemSetPrice iid p =>
    simp only [refMissing] at h
    simp only [applyEffect]
    rw [updateListOfItem_id _ _ _ h]
  | itemSetNote iid nt =>
    simp only [refMissing] at h
    simp only [applyEffect]
    rw [updateFirstItem_id _ _ _ h]
  | itemPurchase iid p =>
    simp only [refMissing] at h
    simp only [applyEffect]
    rw [updateListOfItem_id _ _ _ h]
  | itemRedistributeMoney iid =>
    simp only [refMissing] at h
    simp only [applyEffect]
    rw [updateListOfItem_id _ _ _ h]
  | newState => simp only [refMissing] at h
  | migrateState a b c d e => simp only [refMissing] at h
  | listNew nm => simp only [refMissing] at h
  | undo x => simp only [refMissing] at h
  | redo x => simp only [refMissing] at h

/-- From a positional correspondence, every member of the right list has
a related member of the left list. -/
theorem forall2_mem_right {α β : Type} {R : α → β → Prop} :
    ∀ {l₁ : List α} {l₂ : List β}, List.Forall₂ R l₁ l₂ →
      ∀ b ∈ l₂, ∃ a ∈ l₁, R a b := by
  intro l₁ l₂ h
  induction h with
  | nil => intro b hb; simp at hb
  | @cons x y lx ly h1 h2 ih =>
    intro b hb
    rcases List.mem_cons.mp hb with rfl | hb'
    · exact ⟨x, by simp, h1⟩
    · obtain ⟨z, hz, hR⟩ := ih b hb'
      exact ⟨z, by simp [hz], hR⟩

/-- Item arrays with positionally equal ids contain the same ids. -/
theorem listHasItem_congr (itemId : ℕ) {xs ys : List Item}
    (h : List.Forall₂ (fun (i i' : Item) => i'.id = i.id) xs ys) :
    (ys.any fun it => it.id = itemId) = (xs.any fun it => it.id = itemId) := by
  induction h with
  | nil => rfl
  | @cons x y lx ly h1 h2 ih => simp [List.any_cons, h1, ih]

theorem mutatingProjection_lists (s : Snapshot) (t : ℚ) :
    (mutatingProjection s t).lists = (projListsF (s.time.getD t) t none s.lists).1 := by
  simp only [mutatingProjection]
  rw [foldl_projStep]
  simp

/-- The projection keeps every list id and every item id in place. -/
theorem projListsF_ids (time0 t : ℚ) (lists : List BudgetList) :
    ∀ nl : Option JTime,
      List.Forall₂ (fun l l' => l'.id = l.id ∧
          List.Forall₂ (fun (i i' : Item) => i'.id = i.id)
            (l.items.getD []) (l'.items.getD []))
        lists (projListsF time0 t nl lists).1 := by
  induction lists with
  | nil => intro nl; exact .nil
  | cons l ls ih =>
    intro nl
    obtain ⟨h1, _, _, _, h5⟩ := projectList_frame time0 t nl l
    simp only [projListsF]
    exact .cons ⟨h1, List.Forall₂.imp (fun a b hab => hab.1) h5⟩ (ih _)

/-- A missing reference stays missing after projection: projection keeps
all list and item ids. -/
theorem refMissing_projection (s : Snapshot) (a : Action) (t : ℚ)
    (h : refMissing a s) : refMissing a (mutatingProjection s t) := by
  have hids : List.Forall₂ (fun l l' => l'.id = l.id ∧
      List.Forall₂ (fun (i i' : Item) => i'.id = i.id)
        (l.items.getD []) (l'.items.getD []))
      s.lists (mutatingProjection s t).lists := by
    rw [mutatingProjection_lists]
    exact projListsF_ids _ t s.lists none
  obtain ⟨ai, at', ad, ah⟩ := a
  cases ad
  case newState => simp only [refMissing] at h
  case migrateState a b c d e => simp only [refMissing] at h
  case listNew nm => simp only [refMissing] at h
  case undo x => simp only [refMissing] at h
  case redo x => simp only [refMissing] at h
  case itemMove iid tid tix =>
    simp only [refMissing] at h ⊢
    rcases h with h | h
    · left
      intro l' hl'
      obtain ⟨l, hl, hrel⟩ := forall2_mem_right hids l' hl'
      show listHasItem iid l' = false
      unfold listHasItem
      rw [listHasItem_congr iid hrel.2]
      exact h l hl
    · right
      intro l' hl'
      obtain ⟨l, hl, hrel⟩ := forall2_mem_right hids l' hl'
      rw [hrel.1]
      exact h l hl
  all_goals
    simp only [refMissing] at h ⊢
  all_goals
    intro l' hl'
  all_goals
    obtain ⟨l, hl, hrel⟩ := forall2_mem_right hids l' hl'
  all_goals
    first
      | (rw [hrel.1]
         exact h l hl)
      | (show listHasItem _ l' = false
         unfold listHasItem
         rw [listHasItem_congr _ hrel.2]
         exact h l hl)

/-- The defining equation of `foldAction` for a structural (non-Undo/Redo)
action with `skipEffect = false`: set the hash, project, apply the
effect, project again. -/
theorem foldAction_effect (s : Snapshot) (a : Action) (prev : List Action)
    (h : isUndoRedo a.data = false) :
    foldAction s a prev false =
      mutatingProjection
        (applyEffect (mutatingProjection { s with hash := a.hash } a.time) a)
        a.time := by
  obtain ⟨ai, at', ad, ah⟩ := a
  cases ad
  case undo x => simp [isUndoRedo] at h
  case redo x => simp [isUndoRedo] at h
  all_goals rfl

/-- Setting the hash commutes with projection (the projection never reads
the hash). -/
theorem mutatingProjection_hash_set (s : Snapshot) (h : Hash) (t : ℚ) :
    mutatingProjection { s with hash := h } t =
      { mutatingProjection s t with hash := h } := rfl

/-- C8 (amended): missing-reference tolerance — for every snapshot and
every list- or item-referencing action whose referenced list or item id
is absent, `foldAction` succeeds and applies no structural effect, but it
projects the snapshot to the action's time **twice** (once before and
once after the no-op effect), so its result is the double projection with
the action's hash — which can differ from the single plain projection the
original claim names, because projection is not idempotent
(`missing_ref_noop_cex`). -/
theorem missing_ref_noop (s : Snapshot) (a : Action) (prev : List Action)
    (h : refMissing a s) :
    foldAction s a prev false =
      { projection (projection s a.time) a.time with hash := a.hash } := by
  have hur : isUndoRedo a.data = false := by
    obtain ⟨ai, at', ad, ah⟩ := a
    cases ad <;> try rfl
    all_goals simp only [refMissing] at h
  rw [foldAction_effect s a prev hur, mutatingProjection_hash_set s a.hash a.time]
  have hmiss : refMissing a { mutatingProjection s a.time with hash := a.hash } :=
    refMissing_projection s a a.time h
  rw [applyEffect_refMissing _ _ hmiss,
    mutatingProjection_hash_set (mutatingProjection s a.time) a.hash a.time]
  rfl

/-- Unfunded item of the C8 counterexample list. -/
def cexItemC8 : Item :=
  { id := 2
    name := some "goal"
    price := some 20
    saved := some ⟨0, 0⟩
    note := none
    expectedDate := none }

/-- The C8 counterexample list: positive kitty and an unfunded item, so
re-projection moves the expected date. -/
def cexListC8 : BudgetList :=
  { id := 1
    name := some "wish"
    items := some [cexItemC8]
    budget := some ⟨5, .day⟩
    kitty := some ⟨10, 0⟩
    purchaseHistory := some [] }

def cexSnapC8 : Snapshot :=
  { id := 0
    lists := [cexListC8]
    time := some 0
    nextNonlinearity := none
    hash := Hash.empty }

/-- An action referencing a missing item id (99). -/
def cexActC8 : Action :=
  { id := 50, time := 86400000, data := .itemSetName 99 "zz",
    hash := .chain .empty ⟨50, 86400000, .itemSetName 99 "zz"⟩ }

/-- C8 counterexample: the referenced item id is absent, yet the folded
lists differ from the single plain projection's lists (the double
projection recomputes the unfunded item's expected date from the new
committed time, and a positive kitty shifts it). -/
theorem missing_ref_noop_cex :
    refMissing cexActC8 cexSnapC8 ∧
    (foldAction cexSnapC8 cexActC8 [] false).lists ≠
      (projection cexSnapC8 cexActC8.time).lists := by
  constructor
  · show ∀ l ∈ cexSnapC8.lists, listHasItem 99 l = false
    with_unfolding_all decide
  · with_unfolding_all decide

/-- C8 witness: the amended theorem at the concrete snapshot and
missing-item action. -/
theorem missing_ref_noop_wit :
    refMissing cexActC8 cexSnapC8 ∧
    foldAction cexSnapC8 cexActC8 [] false =
      { projection (projection cexSnapC8 cexActC8.time) cexActC8.time with
        hash := cexActC8.hash } :=
  ⟨(by with_unfolding_all decide :
      ∀ l ∈ cexSnapC8.lists, listHasItem 99 l = false),
    missing_ref_noop cexSnapC8 cexActC8 []
      (by with_unfolding_all decide :
        ∀ l ∈ cexSnapC8.lists, listHasItem 99 l = false)⟩

/-! # History merge (`mergeHistories` in `app.ts`) -/

/-- Re-chain one picked action onto the merged output: `hash =
calculateActionHash(hash, pickAction)`, replacing the action's hash field
when it differs (`pickAction = Object.freeze({ ...pickAction, hash })`). -/
def rechain (h : Hash) (a : Action) : Action :=
  let hash := Hash.chain h a.content
  if hash = a.hash then a else { a with hash := hash }

/-- The two-pointer merge loop of `mergeHistories`, with a structural fuel
bound: every iteration consumes at least one input action, so any fuel of
at least the combined length is enough (`mergeLoopF_congr` below); the
fuel only exists to make the recursion structural. -/
def mergeLoopF : ℕ → List Action → List Action → Hash → List Action
  | 0, _, _, _ => []
  | fuel + 1, left, right, h =>
    match left, right with
    | [], [] => []
    | l :: ls, r :: rs =>
      if l.id = r.id then
        -- Consume both, since they're the same action (the most common case)
        let pick := rechain h l
        pick :: mergeLoopF fuel ls rs pick.hash
      else if l.time ≤ r.time then
        -- The left wins because it's earlier
        let pick := rechain h l
        pick :: mergeLoopF fuel ls (r :: rs) pick.hash
      else
        -- The right wins because it has an earlier time than the left
        let pick := rechain h r
        pick :: mergeLoopF fuel (l :: ls) rs pick.hash
    | l :: ls, [] =>
      let pick := rechain h l
      pick :: mergeLoopF fuel ls [] pick.hash
    | [], r :: rs =>
      let pick := rechain h r
      pick :: mergeLoopF fuel [] rs pick.hash

/-- The two-pointer merge loop of `mergeHistories` (the `while (!left.done
|| !right.done)` loop): if both heads are the same action, consume both;
otherwise consume whichever head has the earlier time (ties favour the
left history); re-chain the picked action's hash onto the merged output. -/
def mergeLoop (left right : List Action) (h : Hash) : List Action :=
  mergeLoopF (left.length + right.length) left right h

/-- `mergeHistories` from `app.ts` (binary case; the variadic wrapper and
the guards for `undefined` arguments are outside the model).  Fast paths:
identical final hash, or one history containing the other's final hash;
general case: the two-pointer time-ordered merge from the empty hash. -/
def mergeHistories (history1 history2 : List Action) : List Action :=
  let history1Hash := historyHash history1
  let history2Hash := historyHash history2
  if history1Hash = history2Hash then history1
  else if history1.any (fun a => a.hash = history2Hash) then history1
  else if history2.any (fun a => a.hash = history1Hash) then history2
  else mergeLoop history1 history2 emptyHash

/-! # Hash-chain well-formedness -/

/-- `chainOkB h actions` holds when every action's `hash` field is the
digest of its predecessor's hash and its own content, starting from `h` —
the invariant `doAction` and `mergeHistories` maintain (`// Note that the
hash for the action must be correct`, source comment at `foldAction`). -/
def chainOkB (h : Hash) : List Action → Bool
  | [] => true
  | a :: rest => (a.hash = Hash.chain h a.content : Bool) && chainOkB a.hash rest

/-- A well-chained history: the hash chain is valid from `emptyHash`. -/
def wellChained (actions : List Action) : Prop :=
  chainOkB emptyHash actions = true

instance (actions : List Action) : Decidable (wellChained actions) :=
  inferInstanceAs (Decidable (_ = true))

/-! # Basic lemmas about the fold steps -/

theorem mutatingProjection_hash (s : Snapshot) (t : ℚ) :
    (mutatingProjection s t).hash = s.hash := rfl

theorem mutatingProjection_id (s : Snapshot) (t : ℚ) :
    (mutatingProjection s t).id = s.id := rfl

set_option maxHeartbeats 1600000 in
theorem applyEffect_hash (s : Snapshot) (a : Action) (h : isMigrate a.data = false) :
    (applyEffect s a).hash = s.hash := by
  obtain ⟨aid, atime, ad, ahash⟩ := a
  cases ad
  case migrateState => simp [isMigrate] at h
  all_goals rfl

set_option maxHeartbeats 1600000 in
/-- Every effect except a `MigrateState` whose legacy payload embeds a
hash leaves the snapshot's hash alone. -/
theorem applyEffect_hash_keep (s : Snapshot) (a : Action)
    (h : carriesLegacyHash a.data = false) : (applyEffect s a).hash = s.hash := by
  obtain ⟨aid, atime, ad, ahash⟩ := a
  cases ad
  case migrateState stateId mlists mtime mnl mhash =>
    cases mhash
    case none => rfl
    case some code => simp [carriesLegacyHash] at h
  all_goals rfl

theorem reduceRun_nil (uh : List Action → Action → Snapshot) (skip : Finset ℕ)
    (s : Snapshot) (done : List Action) : reduceRun uh skip s done [] = s := rfl

set_option maxHeartbeats 1600000 in
theorem reduceRun_cons_skipped (uh : List Action → Action → Snapshot) (skip : Finset ℕ)
    (s : Snapshot) (done : List Action) (a : Action) (rest' : List Action)
    (h : a.id ∈ skip) :
    reduceRun uh skip s done (a :: rest') =
    reduceRun uh skip { s with hash := a.hash } (done ++ [a]) rest' := by
  simp only [reduceRun, if_pos h]

set_option maxHeartbeats 1600000 in
theorem reduceRun_cons_effect (uh : List Action → Action → Snapshot) (skip : Finset ℕ)
    (s : Snapshot) (done : List Action) (a : Action) (rest' : List Action)
    (h : a.id ∉ skip) (hur : isUndoRedo a.data = false) :
    reduceRun uh skip s done (a :: rest') =
    reduceRun uh skip
      (mutatingProjection
        (applyEffect (mutatingProjection { s with hash := a.hash } a.time) a) a.time)
      (done ++ [a]) rest' := by
  obtain ⟨aid, atime, ad, ahash⟩ := a
  simp only at h hur ⊢
  cases ad
  case undo => simp [isUndoRedo] at hur
  case redo => simp [isUndoRedo] at hur
  all_goals
    show reduceRun uh skip (if aid ∈ skip then _ else _) (done ++ [_]) rest' = _
    rw [if_neg h]

set_option maxHeartbeats 1600000 in
theorem reduceRun_cons_undoredo (uh : List Action → Action → Snapshot) (skip : Finset ℕ)
    (s : Snapshot) (done : List Action) (a b : Action) (rest'' : List Action)
    (h : a.id ∉ skip) (hur : isUndoRedo a.data = true) :
    reduceRun uh skip s done (a :: b :: rest'') =
    reduceRun uh skip (uh done a) (done ++ [a]) (b :: rest'') := by
  obtain ⟨aid, atime, ad, ahash⟩ := a
  simp only at h hur ⊢
  cases ad
  case undo =>
    show reduceRun uh skip (if aid ∈ skip then _ else _) (done ++ [_]) (b :: rest'') = _
    rw [if_neg h]
  case redo =>
    show reduceRun uh skip (if aid ∈ skip then _ else _) (done ++ [_]) (b :: rest'') = _
    rw [if_neg h]
  all_goals simp [isUndoRedo] at hur

set_option maxHeartbeats 1600000 in
theorem reduceRun_single_undoredo (uh : List Action → Action → Snapshot) (skip : Finset ℕ)
    (s : Snapshot) (done : List Action) (a : Action)
    (h : a.id ∉ skip) (hur : isUndoRedo a.data = true) :
    reduceRun uh skip s done [a] = { s with hash := a.hash } := by
  obtain ⟨aid, atime, ad, ahash⟩ := a
  simp only at h hur ⊢
  cases ad
  case undo => simp only [reduceRun, if_neg h]
  case redo => simp only [reduceRun, if_neg h]
  all_goals simp [isUndoRedo] at hur

/-- The final hash of the fold pass is the hash of the last action —
provided an unskipped `MigrateState` is not the last action (its effect
overwrites the hash with the embedded legacy hash). -/
theorem reduceRun_hash (uh : List Action → Action → Snapshot) (skip : Finset ℕ) :
    ∀ (rest : List Action) (a : Action) (s : Snapshot) (done : List Action),
      rest.getLast? = some a →
      (isMigrate a.data = true → a.id ∈ skip) →
      (reduceRun uh skip s done rest).hash = a.hash := by
  intro rest
  induction rest with
  | nil => intro a s done hlast; simp at hlast
  | cons x rest ih =>
    intro a s done hlast hmig
    cases rest with
    | nil =>
      have hxa : a = x := by
        have := hlast
        simp only [List.getLast?_singleton, Option.some.injEq] at this
        exact this.symm
      subst hxa
      by_cases hx : a.id ∈ skip
      · rw [reduceRun_cons_skipped uh skip s done a [] hx, reduceRun_nil]
      · cases hur : isUndoRedo a.data with
        | true => rw [reduceRun_single_undoredo uh skip s done a hx hur]
        | false =>
          have hm : isMigrate a.data = false := by
            cases hmm : isMigrate a.data
            · rfl
            · exact absurd (hmig hmm) hx
          rw [reduceRun_cons_effect uh skip s done a [] hx hur, reduceRun_nil,
            mutatingProjection_hash, applyEffect_hash _ _ hm, mutatingProjection_hash]
    | cons y rest'' =>
      have hlast' : (y :: rest'').getLast? = some a := by
        rwa [List.getLast?_cons_cons] at hlast
      by_cases hx : x.id ∈ skip
      · rw [reduceRun_cons_skipped uh skip s done x (y :: rest'') hx]
        exact ih a _ _ hlast' hmig
      · cases hur : isUndoRedo x.data with
        | true =>
          rw [reduceRun_cons_undoredo uh skip s done x y rest'' hx hur]
          exact ih a _ _ hlast' hmig
        | false =>
          rw [reduceRun_cons_effect uh skip s done x (y :: rest'') hx hur]
          exact ih a _ _ hlast' hmig

/-! # The fuel of `reduceActionsF` is irrelevant beyond the history length -/

theorem reduceRun_uh_congr (uh₁ uh₂ : List Action → Action → Snapshot) (skip : Finset ℕ) :
    ∀ (rest : List Action) (s : Snapshot) (done : List Action),
      (∀ d a, d.length + 1 < done.length + rest.length → uh₁ d a = uh₂ d a) →
      reduceRun uh₁ skip s done rest = reduceRun uh₂ skip s done rest := by
  intro rest
  induction rest with
  | nil => intro s done h; rfl
  | cons x rest ih =>
    intro s done h
    have hrec : ∀ s', reduceRun uh₁ skip s' (done ++ [x]) rest =
        reduceRun uh₂ skip s' (done ++ [x]) rest := by
      intro s'
      refine ih s' (done ++ [x]) ?_
      intro d a hd
      refine h d a ?_
      simp only [List.length_append, List.length_cons, List.length_nil] at hd ⊢
      omega
    by_cases hx : x.id ∈ skip
    · rw [reduceRun_cons_skipped uh₁ skip s done x rest hx,
        reduceRun_cons_skipped uh₂ skip s done x rest hx]
      exact hrec _
    · cases hur : isUndoRedo x.data with
      | false =>
        rw [reduceRun_cons_effect uh₁ skip s done x rest hx hur,
          reduceRun_cons_effect uh₂ skip s done x rest hx hur]
        exact hrec _
      | true =>
        cases rest with
        | nil =>
          rw [reduceRun_single_undoredo uh₁ skip s done x hx hur,
            reduceRun_single_undoredo uh₂ skip s done x hx hur]
        | cons y rest'' =>
          rw [reduceRun_cons_undoredo uh₁ skip s done x y rest'' hx hur,
            reduceRun_cons_undoredo uh₂ skip s done x y rest'' hx hur]
          rw [show uh₁ done x = uh₂ done x from
            h done x (by simp only [List.length_cons]; omega)]
          exact hrec _

theorem reduceActionsF_congr :
    ∀ (f₁ f₂ : ℕ) (actions : List Action), actions.length < f₁ → actions.length < f₂ →
      reduceActionsF f₁ actions = reduceActionsF f₂ actions := by
  intro f₁
  induction f₁ with
  | zero => intro f₂ actions h₁; omega
  | succ n ih =>
    intro f₂ actions h₁ h₂
    cases f₂ with
    | zero => omega
    | succ m =>
      simp only [reduceActionsF]
      refine reduceRun_uh_congr _ _ _ actions emptyState [] ?_
      intro d a hd
      simp only [List.length_nil, Nat.zero_add] at hd
      refine ih m (d ++ [a]) ?_ ?_ <;>
        simp only [List.length_append, List.length_cons, List.length_nil] <;> omega

/-- The defining equation of the source's `reduceActions`: the fold with the
`Undo`/`Redo` rebuilds performed by `reduceActions` itself on the prefix
including the `Undo`/`Redo` action. -/
theorem reduceActions_eq_run (actions : List Action) :
    reduceActions actions =
    reduceRun (fun done a => reduceActions (done ++ [a]))
      (computeSkip actions) emptyState [] actions := by
  show reduceActionsF (actions.length + 1) actions = _
  rw [show reduceActionsF (actions.length + 1) actions =
      reduceRun (fun done a => reduceActionsF actions.length (done ++ [a]))
        (computeSkip actions) emptyState [] actions from rfl]
  refine reduceRun_uh_congr _ _ _ actions emptyState [] ?_
  intro d a hd
  simp only [List.length_nil, Nat.zero_add] at hd
  show reduceActionsF actions.length (d ++ [a]) =
    reduceActionsF ((d ++ [a]).length + 1) (d ++ [a])
  refine reduceActionsF_congr _ _ (d ++ [a]) ?_ ?_ <;>
    simp only [List.length_append, List.length_cons, List.length_nil] <;> omega

/-! # The total reducer agrees with the fallible one wherever the source
returns -/

theorem reduceRunE_ok_run (uh : List Action → Action → Snapshot) (skip : Finset ℕ) :
    ∀ (xs : List Action) (s s' : Snapshot) (done : List Action),
      reduceRunE skip s xs = .ok s' → reduceRun uh skip s done xs = s' := by
  intro xs
  induction xs with
  | nil =>
    intro s s' done h
    rw [reduceRun_nil]
    exact Except.ok.inj h
  | cons a rest ih =>
    intro s s' done h
    by_cases hm : a.id ∈ skip
    · rw [reduceRunE_cons_mem skip s a rest hm] at h
      rw [reduceRun_cons_skipped uh skip s done a rest hm]
      exact ih _ _ _ h
    · cases hur : isUndoRedo a.data with
      | true =>
        rw [reduceRunE_cons_undoredo skip s a rest hm hur] at h
        exact absurd h (by simp)
      | false =>
        rw [reduceRunE_cons_effect skip s a rest hm hur] at h
        rw [reduceRun_cons_effect uh skip s done a rest hm hur]
        exact ih _ _ _ h

/-- Whenever the source's `reduceActions` completes without throwing, the
total model `reduceActions` computes its value. -/
theorem reduceActionsE_ok (actions : List Action) (s : Snapshot)
    (h : reduceActionsE actions = .ok s) : reduceActions actions = s := by
  rw [reduceActions_eq_run]
  exact reduceRunE_ok_run _ (computeSkip actions) actions emptyState s [] h

/-! # Skip-set lemmas -/

theorem computeSkip_append (xs ys : List Action) :
    computeSkip (xs ++ ys) = ys.foldl skipStep (computeSkip xs) := by
  unfold computeSkip
  exact List.foldl_append _ _ _ _

theorem skipStep_not_undoredo (S : Finset ℕ) (a : Action)
    (h : isUndoRedo a.data = false) : skipStep S a = S := by
  obtain ⟨aid, atime, ad, ahash⟩ := a
  cases ad <;> simp_all [skipStep, isUndoRedo]

theorem skipStep_undo (S : Finset ℕ) (a : Action) (t : ℕ) (h : a.data = .undo t) :
    skipStep S a = insert t (insert a.id S) := by
  simp [skipStep, h]

theorem skipStep_redo (S : Finset ℕ) (a : Action) (t : ℕ) (h : a.data = .redo t) :
    skipStep S a = (insert a.id S).erase t := by
  simp [skipStep, h]

/-- The final `Undo`/`Redo` of a history is always in its own skip set (for
a `Redo`, provided it does not target itself): this is why the recursive
rebuild branch of the source's `reduceActions` is never taken for the last
action of the rebuilt history. -/
theorem computeSkip_concat_undo_mem (init : List Action) (a : Action)
    (hur : isUndoRedo a.data = true)
    (hsr : ∀ t, a.data = .redo t → t ≠ a.id) :
    a.id ∈ computeSkip (init ++ [a]) := by
  rw [computeSkip_append]
  obtain ⟨aid, atime, ad, ahash⟩ := a
  cases ad <;> simp_all [skipStep, isUndoRedo] <;> omega

/-! # C7: hash consistency of the fold, and skip semantics -/

/-- The final hash of a completed fallible fold is the hash of the last
action — provided the last action is not an unskipped `MigrateState`
carrying a legacy hash (the one effect that overwrites the hash). -/
theorem reduceRunE_hash_ok (skip : Finset ℕ) :
    ∀ (xs : List Action) (s s' : Snapshot) (a : Action),
      reduceRunE skip s xs = .ok s' → xs.getLast? = some a →
      (carriesLegacyHash a.data = false ∨ a.id ∈ skip) →
      s'.hash = a.hash := by
  intro xs
  induction xs with
  | nil => intro s s' a h hlast hcond; simp at hlast
  | cons x rest ih =>
    intro s s' a h hlast hcond
    cases rest with
    | nil =>
      have hxa : a = x := by
        have := hlast
        simp only [List.getLast?_singleton, Option.some.injEq] at this
        exact this.symm
      subst hxa
      by_cases hm : a.id ∈ skip
      · rw [reduceRunE_cons_mem skip s a [] hm, reduceRunE_nil] at h
        rw [← Except.ok.inj h]
      · rcases hcond with hc | hc
        · cases hur : isUndoRedo a.data with
          | true =>
            rw [reduceRunE_cons_undoredo skip s a [] hm hur] at h
            exact absurd h (by simp)
          | false =>
            rw [reduceRunE_cons_effect skip s a [] hm hur, reduceRunE_nil] at h
            rw [← Except.ok.inj h, mutatingProjection_hash,
              applyEffect_hash_keep _ _ hc, mutatingProjection_hash]
        · exact absurd hc hm
    | cons y ys =>
      have hlast' : (y :: ys).getLast? = some a := by
        rwa [List.getLast?_cons_cons] at hlast
      rw [reduceRunE_cons] at h
      cases hstep : foldActionE s x (decide (x.id ∈ skip)) with
      | error e => rw [hstep] at h; exact absurd h (by simp)
      | ok s₁ =>
        rw [hstep] at h
        exact ih s₁ s' a h hlast' hcond

/-- C7 (amended): whenever the source's `reduceActions` completes — i.e.
the fallible fold yields `.ok`, which requires every `Undo`/`Redo` of the
history to land in the skip set, since folding an unskipped one makes the
immer producer of `foldAction` throw — the resulting snapshot carries the
hash of the last action of the history, provided that last action is not an
unskipped `MigrateState` whose legacy payload embeds a hash (the one effect
that overwrites the fold hash, with the embedded legacy hash); and a
skipped action contributes exactly its hash and nothing else: a fold step
with `skipEffect = true` only replaces the snapshot's hash. -/
theorem hash_skip_semantics :
    (∀ (H : List Action) (s : Snapshot) (a : Action),
      reduceActionsE H = .ok s → H.getLast? = some a →
      (carriesLegacyHash a.data = false ∨ a.id ∈ computeSkip H) →
      s.hash = a.hash)
    ∧ ∀ (s : Snapshot) (a : Action),
        foldActionE s a true = .ok { s with hash := a.hash } := by
  constructor
  · intro H s a h hlast hcond
    exact reduceRunE_hash_ok (computeSkip H) H emptyState s a h hlast hcond
  · intro s a
    rfl

/-- The `MigrateState` action of the C7 counterexample: its legacy payload
carries the foreign hash `some 0`. -/
def cexActC7 : Action :=
  { id := 1, time := 0, data := .migrateState 7 [] 0 none (some 0),
    hash := .chain .empty ⟨1, 0, .migrateState 7 [] 0 none (some 0)⟩ }

/-- C7 counterexample: the one-action history `[cexActC7]` (a
`MigrateState` whose payload embeds a legacy hash) folds without throwing,
yet yields a snapshot whose hash is the embedded legacy hash, not the hash
of the last action of the history — so the claim as stated (the resulting
snapshot's hash always equals the hash of the last action) is false. -/
theorem hash_skip_semantics_cex :
    reduceActionsE [ cexActC7 ] = .ok (reduceActions [ cexActC7 ]) ∧
    (reduceActions [ cexActC7 ]).hash ≠ cexActC7.hash ∧
    (reduceActions [ cexActC7 ]).hash = Hash.legacy (some 0) := by
  refine ⟨?_, ?_, ?_⟩ <;> with_unfolding_all decide

/-- The action of the C7 witness history. -/
def witActC7 : Action :=
  { id := 1, time := 0, data := .listNew "groceries",
    hash := .chain .empty ⟨1, 0, .listNew "groceries"⟩ }

/-- The one-action history of the C7 witness. -/
def witHistC7 : List Action :=
  [ witActC7 ]

/-- C7 witness: the amended hash-consistency theorem applied to a concrete
one-action history, and the skip clause applied to a concrete skipped
action. -/
theorem hash_skip_semantics_wit :
    (reduceActionsE witHistC7 = .ok (reduceActions witHistC7) ∧
      witHistC7.getLast? = some witActC7 ∧
      carriesLegacyHash witActC7.data = false) ∧
    (reduceActions witHistC7).hash = witActC7.hash ∧
    foldActionE emptyState
      { id := 5, time := 3, data := .listDelete 9, hash := Hash.legacy none } true =
      .ok { emptyState with hash := Hash.legacy none } :=
  ⟨⟨by with_unfolding_all decide, by decide, by decide⟩,
   hash_skip_semantics.1 witHistC7 (reduceActions witHistC7) witActC7
     (by with_unfolding_all decide) (by decide) (Or.inl (by decide)),
   hash_skip_semantics.2 emptyState
     { id := 5, time := 3, data := .listDelete 9, hash := Hash.legacy none }⟩

/-! # C4: undo/redo round trip -/

set_option maxHeartbeats 800000 in
/-- A variant of `reduceRun_cons_undoredo` for a nonempty tail. -/
theorem reduceRun_cons_undoredo' (uh : List Action → Action → Snapshot) (skip : Finset ℕ)
    (s : Snapshot) (done : List Action) (a : Action) (rest' : List Action)
    (h : a.id ∉ skip) (hur : isUndoRedo a.data = true) (hne : rest' ≠ []) :
    reduceRun uh skip s done (a :: rest') =
    reduceRun uh skip (uh done a) (done ++ [a]) rest' := by
  cases rest' with
  | nil => exact absurd rfl hne
  | cons b rest'' => exact reduceRun_cons_undoredo uh skip s done a b rest'' h hur

/-- Rewriting the hash of a snapshot twice keeps only the second hash. -/
theorem snapshot_hash_twice (s : Snapshot) (h₁ h₂ : Hash) :
    ({ { s with hash := h₁ } with hash := h₂ } : Snapshot) = { s with hash := h₂ } := rfl

/-- The two parallel fold passes behind the undo/redo round trip: appending
`A`, `Undo(A)`, `Redo(A)` to a history produces the same run as appending
only `A`, except for the final hash, as long as the two skip sets agree on
the history, skip the `Undo` and the `Redo`, and do not skip `A`. -/
theorem reduceRun_roundtrip (uh : List Action → Action → Snapshot)
    (skip₁ skip₂ : Finset ℕ) (A U R : Action)
    (hA : isUndoRedo A.data = false)
    (hA1 : A.id ∉ skip₁) (hA2 : A.id ∉ skip₂)
    (hU1 : U.id ∈ skip₁) (hR1 : R.id ∈ skip₁) :
    ∀ (H : List Action) (s : Snapshot) (done : List Action),
      (∀ h ∈ H, (h.id ∈ skip₁ ↔ h.id ∈ skip₂)) →
      reduceRun uh skip₁ s done (H ++ [A, U, R]) =
      { reduceRun uh skip₂ s done (H ++ [A]) with hash := R.hash } := by
  intro H
  induction H with
  | nil =>
    intro s done hiff
    simp only [List.nil_append]
    rw [reduceRun_cons_effect uh skip₁ s done A [U, R] hA1 hA,
      reduceRun_cons_effect uh skip₂ s done A [] hA2 hA,
      reduceRun_cons_skipped uh skip₁ _ _ U [R] hU1,
      reduceRun_cons_skipped uh skip₁ _ _ R [] hR1,
      reduceRun_nil, reduceRun_nil, snapshot_hash_twice]
  | cons x H' ih =>
    intro s done hiff
    have hx12 := hiff x (by simp)
    have hiff' : ∀ h ∈ H', (h.id ∈ skip₁ ↔ h.id ∈ skip₂) := by
      intro h hh
      exact hiff h (by simp [hh])
    rw [show ((x :: H') ++ [A, U, R]) = x :: (H' ++ [A, U, R]) from rfl,
      show ((x :: H') ++ [A]) = x :: (H' ++ [A]) from rfl]
    by_cases hx : x.id ∈ skip₁
    · rw [reduceRun_cons_skipped uh skip₁ s done x _ hx,
        reduceRun_cons_skipped uh skip₂ s done x _ (hx12.mp hx)]
      exact ih _ _ hiff'
    · have hx2 : x.id ∉ skip₂ := fun c => hx (hx12.mpr c)
      cases hur : isUndoRedo x.data with
      | false =>
        rw [reduceRun_cons_effect uh skip₁ s done x _ hx hur,
          reduceRun_cons_effect uh skip₂ s done x _ hx2 hur]
        exact ih _ _ hiff'
      | true =>
        rw [reduceRun_cons_undoredo' uh skip₁ s done x _ hx hur (by simp),
          reduceRun_cons_undoredo' uh skip₂ s done x _ hx2 hur (by simp)]
        exact ih _ _ hiff'

/-- C4 (amended): when both folds complete — `.ok`, i.e. no unskipped
`Undo`/`Redo` anywhere makes the immer producer of `foldAction` throw;
here the skip pass always skips the appended `Undo` and `Redo` themselves —
folding the sequence `H, A, Undo(A), Redo(A)` yields the same snapshot as
folding only `H, A` in every field except the hash, which becomes the hash
of the `Redo` action (two extra actions are appended to the hash chain, so
the hashes of the two snapshots differ).  The ids of `A`, the `Undo` and
the `Redo` are fresh for `H`, and `A` is a structural action not already
undone in `H`. -/
theorem undo_redo_round_trip (H : List Action) (A U R : Action) (s₁ s₂ : Snapshot)
    (hA : isUndoRedo A.data = false)
    (hU : U.data = .undo A.id) (hR : R.data = .redo A.id)
    (hUA : U.id ≠ A.id) (hRA : R.id ≠ A.id)
    (hHU : ∀ h ∈ H, h.id ≠ U.id) (hHR : ∀ h ∈ H, h.id ≠ R.id)
    (hAskip : A.id ∉ computeSkip H)
    (h₁ : reduceActionsE (H ++ [A, U, R]) = .ok s₁)
    (h₂ : reduceActionsE (H ++ [A]) = .ok s₂) :
    s₁ = { s₂ with hash := R.hash } := by
  rw [← reduceActionsE_ok (H ++ [A, U, R]) s₁ h₁,
    ← reduceActionsE_ok (H ++ [A]) s₂ h₂]
  have hskip1 : computeSkip (H ++ [A, U, R]) =
      (insert R.id (insert A.id (insert U.id (computeSkip H)))).erase A.id := by
    rw [computeSkip_append]
    simp only [List.foldl_cons, List.foldl_nil]
    rw [skipStep_not_undoredo _ A hA, skipStep_undo _ U A.id hU, skipStep_redo _ R A.id hR]
  have hskip2 : computeSkip (H ++ [A]) = computeSkip H := by
    rw [computeSkip_append]
    simp only [List.foldl_cons, List.foldl_nil]
    rw [skipStep_not_undoredo _ A hA]
  rw [reduceActions_eq_run (H ++ [A, U, R]), reduceActions_eq_run (H ++ [A]),
    hskip1, hskip2]
  refine reduceRun_roundtrip _ _ _ A U R hA ?_ ?_ ?_ ?_ H emptyState [] ?_
  · simp
  · exact hAskip
  · simp [Finset.mem_erase, Finset.mem_insert, hUA]
  · simp [Finset.mem_erase, Finset.mem_insert, hRA]
  · intro h hh
    by_cases hhA : h.id = A.id
    · simp only [Finset.mem_erase, hhA, ne_eq, not_true_eq_false, false_and, false_iff]
      exact hAskip
    · simp [Finset.mem_erase, Finset.mem_insert, hhA, hHU h hh, hHR h hh]

/-! # Hash-chain infrastructure for the merge claims -/

/-- Chain the contents of a list of actions onto a starting hash. -/
def chainFrom (h : Hash) (actions : List Action) : Hash :=
  actions.foldl (fun h a => Hash.chain h a.content) h

/-- The hash encoding a whole history (what `historyHash` equals for a
well-chained history). -/
def listHash (actions : List Action) : Hash :=
  chainFrom Hash.empty actions

/-- The chain depth of a hash. -/
def hashLen : Hash → ℕ
  | .empty => 0
  | .legacy _ => 0
  | .chain p _ => hashLen p + 1

theorem chainFrom_append (h : Hash) (xs ys : List Action) :
    chainFrom h (xs ++ ys) = chainFrom (chainFrom h xs) ys := by
  unfold chainFrom
  exact List.foldl_append _ _ _ _

theorem chainFrom_concat (h : Hash) (xs : List Action) (a : Action) :
    chainFrom h (xs ++ [a]) = Hash.chain (chainFrom h xs) a.content := by
  rw [chainFrom_append]
  rfl

theorem chainFrom_hashLen (l : List Action) :
    ∀ h : Hash, hashLen (chainFrom h l) = hashLen h + l.length := by
  induction l with
  | nil => intro h; rfl
  | cons x xs ih =>
    intro h
    show hashLen (chainFrom (Hash.chain h x.content) xs) = hashLen h + (xs.length + 1)
    rw [ih]
    simp [hashLen]
    omega

theorem hashLen_listHash (l : List Action) : hashLen (listHash l) = l.length := by
  unfold listHash
  rw [chainFrom_hashLen]
  simp [hashLen]

theorem chainOkB_append_iff (xs : List Action) :
    ∀ (h : Hash) (ys : List Action),
      chainOkB h (xs ++ ys) = true ↔
      (chainOkB h xs = true ∧ chainOkB (chainFrom h xs) ys = true) := by
  induction xs with
  | nil => intro h ys; simp [chainOkB, chainFrom]
  | cons x xs ih =>
    intro h ys
    show (decide (x.hash = Hash.chain h x.content) && chainOkB x.hash (xs ++ ys)) = true ↔
      ((decide (x.hash = Hash.chain h x.content) && chainOkB x.hash xs) = true ∧
        chainOkB (chainFrom (Hash.chain h x.content) xs) ys = true)
    by_cases hx : x.hash = Hash.chain h x.content
    · rw [← hx]
      simp only [Bool.and_eq_true, decide_eq_true_eq, ih x.hash ys]
      tauto
    · simp [hx]

theorem wellChained_append_left (xs ys : List Action)
    (h : wellChained (xs ++ ys)) : wellChained xs :=
  ((chainOkB_append_iff xs Hash.empty ys).mp h).1

theorem chainOkB_getLast (l : List Action) :
    ∀ (h : Hash) (a : Action), chainOkB h l = true → l.getLast? = some a →
      a.hash = chainFrom h l := by
  induction l with
  | nil => intro h a hok hlast; simp at hlast
  | cons x xs ih =>
    intro h a hok hlast
    have hok' : (decide (x.hash = Hash.chain h x.content) && chainOkB x.hash xs) = true := hok
    simp only [Bool.and_eq_true, decide_eq_true_eq] at hok'
    cases xs with
    | nil =>
      simp only [List.getLast?_singleton, Option.some.injEq] at hlast
      subst hlast
      exact hok'.1
    | cons y ys =>
      rw [List.getLast?_cons_cons] at hlast
      have := ih x.hash a hok'.2 hlast
      rw [this]
      show chainFrom x.hash (y :: ys) = chainFrom (Hash.chain h x.content) (y :: ys)
      rw [hok'.1]

theorem historyHash_eq_listHash (l : List Action) (h : wellChained l) :
    historyHash l = listHash l := by
  cases hl : l.getLast? with
  | none =>
    have : l = [] := List.getLast?_eq_none_iff.mp hl
    subst this
    rfl
  | some a =>
    unfold historyHash
    rw [hl]
    exact chainOkB_getLast l Hash.empty a h hl

theorem chainOkB_mem (l : List Action) :
    ∀ (h : Hash) (a : Action), chainOkB h l = true → a ∈ l →
      ∃ k, 0 < k ∧ k ≤ l.length ∧ a.hash = chainFrom h (l.take k) := by
  induction l with
  | nil => intro h a hok hmem; simp at hmem
  | cons x xs ih =>
    intro h a hok hmem
    have hok' : (decide (x.hash = Hash.chain h x.content) && chainOkB x.hash xs) = true := hok
    simp only [Bool.and_eq_true, decide_eq_true_eq] at hok'
    rcases List.mem_cons.mp hmem with rfl | hmem'
    · exact ⟨1, by omega, by simp, hok'.1⟩
    · obtain ⟨k, hk0, hkle, hk⟩ := ih x.hash a hok'.2 hmem'
      refine ⟨k + 1, by omega, by simp; omega, ?_⟩
      rw [hk]
      show chainFrom x.hash (xs.take k) = chainFrom (Hash.chain h x.content) (xs.take k)
      rw [hok'.1]

theorem wellChained_take (l : List Action) (k : ℕ) (h : wellChained l) :
    wellChained (l.take k) := by
  have : l = l.take k ++ l.drop k := (List.take_append_drop k l).symm
  rw [this] at h
  exact wellChained_append_left _ _ h

/-- Two well-chained histories with the same final hash are the same
history: the free hash chain determines the whole sequence of action
contents, and the hash fields are determined by the chain. -/
theorem wellChained_listHash_inj (l₁ : List Action) :
    ∀ l₂ : List Action, wellChained l₁ → wellChained l₂ →
      listHash l₁ = listHash l₂ → l₁ = l₂ := by
  induction l₁ using List.reverseRecOn with
  | nil =>
    intro l₂ h1 h2 he
    rcases List.eq_nil_or_concat l₂ with rfl | ⟨L, b, rfl⟩
    · rfl
    · rw [List.concat_eq_append] at he ⊢
      rw [show listHash (L ++ [b]) = Hash.chain (chainFrom Hash.empty L) b.content from
        chainFrom_concat _ _ _] at he
      exact absurd he.symm (by simp [listHash, chainFrom])
  | append_singleton init a ih =>
    intro l₂ h1 h2 he
    rcases List.eq_nil_or_concat l₂ with rfl | ⟨L, b, rfl⟩
    · rw [show listHash (init ++ [a]) = Hash.chain (chainFrom Hash.empty init) a.content from
        chainFrom_concat _ _ _] at he
      exact absurd he (by simp [listHash, chainFrom])
    · rw [List.concat_eq_append] at h2 he ⊢
      rw [show listHash (init ++ [a]) = Hash.chain (chainFrom Hash.empty init) a.content from
        chainFrom_concat _ _ _,
        show listHash (L ++ [b]) = Hash.chain (chainFrom Hash.empty L) b.content from
        chainFrom_concat _ _ _] at he
      obtain ⟨hprev, hcont⟩ := Hash.chain.inj he
      have hinit : init = L := ih L (wellChained_append_left _ _ h1)
        (wellChained_append_left _ _ h2) hprev
      subst hinit
      have ha : a.hash = Hash.chain (chainFrom Hash.empty init) a.content := by
        have := ((chainOkB_append_iff init Hash.empty [a]).mp h1).2
        have h' : (decide (a.hash = Hash.chain (chainFrom Hash.empty init) a.content)
            && true) = true := this
        simpa using h'
      have hb : b.hash = Hash.chain (chainFrom Hash.empty init) b.content := by
        have := ((chainOkB_append_iff init Hash.empty [b]).mp h2).2
        have h' : (decide (b.hash = Hash.chain (chainFrom Hash.empty init) b.content)
            && true) = true := this
        simpa using h'
      have hab : a = b := by
        have hh : a.hash = b.hash := by rw [ha, hb, hcont]
        obtain ⟨ai, at', ad, ah⟩ := a
        obtain ⟨bi, bt, bd, bh⟩ := b
        obtain ⟨hi, ht, hd⟩ := ActionContent.mk.inj hcont
        simp only [Action.mk.injEq]
        exact ⟨hi, ht, hd, hh⟩
      rw [hab]

/-- A well-chained member's hash encodes a nonempty prefix of the history. -/
theorem wellChained_mem_take (l : List Action) (a : Action) (h : wellChained l)
    (hmem : a ∈ l) :
    ∃ k, 0 < k ∧ k ≤ l.length ∧ a.hash = listHash (l.take k) :=
  chainOkB_mem l Hash.empty a h hmem
/-! # Merge-loop lemmas -/

theorem mergeLoopF_unfold (f : ℕ) (l r : Action) (ls rs : List Action) (h : Hash) :
    mergeLoopF (f + 1) (l :: ls) (r :: rs) h =
      (if l.id = r.id then
        rechain h l :: mergeLoopF f ls rs (rechain h l).hash
      else if l.time ≤ r.time then
        rechain h l :: mergeLoopF f ls (r :: rs) (rechain h l).hash
      else
        rechain h r :: mergeLoopF f (l :: ls) rs (rechain h r).hash) := rfl

theorem mergeLoopF_nil_cons (f : ℕ) (r : Action) (rs : List Action) (h : Hash) :
    mergeLoopF (f + 1) [] (r :: rs) h =
      rechain h r :: mergeLoopF f [] rs (rechain h r).hash := rfl

theorem mergeLoopF_cons_nil (f : ℕ) (l : Action) (ls : List Action) (h : Hash) :
    mergeLoopF (f + 1) (l :: ls) [] h =
      rechain h l :: mergeLoopF f ls [] (rechain h l).hash := rfl

/-- Any fuel of at least the combined input length computes the same merge. -/
theorem mergeLoopF_congr (f₁ : ℕ) :
    ∀ (f₂ : ℕ) (l r : List Action) (h : Hash),
      l.length + r.length ≤ f₁ → l.length + r.length ≤ f₂ →
      mergeLoopF f₁ l r h = mergeLoopF f₂ l r h := by
  induction f₁ with
  | zero =>
    intro f₂ l r h h1 h2
    obtain rfl : l = [] := List.length_eq_zero.mp (by omega)
    obtain rfl : r = [] := List.length_eq_zero.mp (by omega)
    cases f₂ <;> rfl
  | succ f ih =>
    intro f₂ l r h h1 h2
    cases f₂ with
    | zero =>
      obtain rfl : l = [] := List.length_eq_zero.mp (by omega)
      obtain rfl : r = [] := List.length_eq_zero.mp (by omega)
      rfl
    | succ g =>
      cases l with
      | nil =>
        cases r with
        | nil => rfl
        | cons r rs =>
          rw [mergeLoopF_nil_cons, mergeLoopF_nil_cons,
            ih g [] rs (rechain h r).hash
              (by simp only [List.length_nil, List.length_cons] at h1 ⊢; omega)
              (by simp only [List.length_nil, List.length_cons] at h2 ⊢; omega)]
      | cons l ls =>
        cases r with
        | nil =>
          rw [mergeLoopF_cons_nil, mergeLoopF_cons_nil,
            ih g ls [] (rechain h l).hash
              (by simp only [List.length_nil, List.length_cons] at h1 ⊢; omega)
              (by simp only [List.length_nil, List.length_cons] at h2 ⊢; omega)]
        | cons r rs =>
          simp only [List.length_cons] at h1 h2
          rw [mergeLoopF_unfold, mergeLoopF_unfold]
          by_cases hid : l.id = r.id
          · rw [if_pos hid, if_pos hid,
              ih g ls rs (rechain h l).hash (by omega) (by omega)]
          · rw [if_neg hid, if_neg hid]
            by_cases hle : l.time ≤ r.time
            · rw [if_pos hle, if_pos hle,
                ih g ls (r :: rs) (rechain h l).hash
                  (by simp only [List.length_cons]; omega)
                  (by simp only [List.length_cons]; omega)]
            · rw [if_neg hle, if_neg hle,
                ih g (l :: ls) rs (rechain h r).hash
                  (by simp only [List.length_cons]; omega)
                  (by simp only [List.length_cons]; omega)]

/-- With one side exhausted, the merge loop just drains the other side —
independently of which side it is. -/
theorem mergeLoopF_one_sided (X : List Action) :
    ∀ (f : ℕ) (h : Hash), mergeLoopF f X [] h = mergeLoopF f [] X h := by
  induction X with
  | nil => intro f h; rfl
  | cons x xs ih =>
    intro f h
    cases f with
    | zero => rfl
    | succ g => rw [mergeLoopF_cons_nil, mergeLoopF_nil_cons, ih]

/-- Draining a history that is correctly chained from the accumulated hash
re-chains every action to itself: the output is the input. -/
theorem mergeLoopF_rechain_nil (B : List Action) :
    ∀ (f : ℕ) (h : Hash), chainOkB h B = true → B.length ≤ f →
      mergeLoopF f [] B h = B := by
  induction B with
  | nil => intro f h _ _; cases f <;> rfl
  | cons r rs ih =>
    intro f h hok hf
    cases f with
    | zero => simp at hf
    | succ g =>
      have hok' : (decide (r.hash = Hash.chain h r.content) && chainOkB r.hash rs) = true := hok
      simp only [Bool.and_eq_true, decide_eq_true_eq] at hok'
      have hre : rechain h r = r := by
        unfold rechain
        rw [if_pos hok'.1.symm]
      rw [mergeLoopF_nil_cons, hre,
        ih g r.hash hok'.2 (by simp only [List.length_cons] at hf; omega)]

/-- When the two sides share no action ids and no timestamps, the merge
loop is symmetric: each step picks the globally earlier action whichever
side it came from. -/
theorem mergeLoopF_sym (f : ℕ) :
    ∀ (X Y : List Action) (h : Hash),
      X.length + Y.length ≤ f →
      (∀ x ∈ X, ∀ y ∈ Y, x.id ≠ y.id) →
      (∀ x ∈ X, ∀ y ∈ Y, x.time ≠ y.time) →
      mergeLoopF f X Y h = mergeLoopF f Y X h := by
  induction f with
  | zero =>
    intro X Y h hlen _ _
    obtain rfl : X = [] := List.length_eq_zero.mp (by omega)
    obtain rfl : Y = [] := List.length_eq_zero.mp (by omega)
    rfl
  | succ g ih =>
    intro X Y h hlen hid htime
    cases X with
    | nil => exact (mergeLoopF_one_sided Y (g + 1) h).symm
    | cons x xs =>
      cases Y with
      | nil => exact mergeLoopF_one_sided (x :: xs) (g + 1) h
      | cons y ys =>
        simp only [List.length_cons] at hlen
        have hxy : x.id ≠ y.id := hid x (by simp) y (by simp)
        have htxy : x.time ≠ y.time := htime x (by simp) y (by simp)
        have hyx' : y.id ≠ x.id := Ne.symm hxy
        rw [mergeLoopF_unfold, mergeLoopF_unfold, if_neg hxy, if_neg hyx']
        by_cases hle : x.time ≤ y.time
        · have hnle : ¬ y.time ≤ x.time := fun hyx => htxy (le_antisymm hle hyx)
          rw [if_pos hle, if_neg hnle]
          rw [ih xs (y :: ys) (rechain h x).hash
            (by simp only [List.length_cons]; omega)
            (fun a ha b hb => hid a (List.mem_cons_of_mem _ ha) b hb)
            (fun a ha b hb => htime a (List.mem_cons_of_mem _ ha) b hb)]
        · have hyx : y.time ≤ x.time := le_of_not_le hle
          rw [if_neg hle, if_pos hyx]
          rw [← ih (x :: xs) ys (rechain h y).hash
            (by simp only [List.length_cons]; omega)
            (fun a ha b hb => hid a ha b (List.mem_cons_of_mem _ hb))
            (fun a ha b hb => htime a ha b (List.mem_cons_of_mem _ hb))]

/-- The merge loop consumes a correctly-chained common prefix pairwise
(the `leftAction.id === rightAction.id` branch), emitting it unchanged. -/
theorem mergeLoopF_consume (P : List Action) :
    ∀ (f : ℕ) (X Y : List Action) (h : Hash),
      chainOkB h P = true → P.length ≤ f →
      mergeLoopF f (P ++ X) (P ++ Y) h =
        P ++ mergeLoopF (f - P.length) X Y (chainFrom h P) := by
  induction P with
  | nil =>
    intro f X Y h _ _
    simp only [List.nil_append, Nat.sub_zero]
    rfl
  | cons p P ih =>
    intro f X Y h hok hf
    cases f with
    | zero => simp at hf
    | succ g =>
      have hok' : (decide (p.hash = Hash.chain h p.content) && chainOkB p.hash P) = true := hok
      simp only [Bool.and_eq_true, decide_eq_true_eq] at hok'
      have hre : rechain h p = p := by
        unfold rechain
        rw [if_pos hok'.1.symm]
      have hcf : chainFrom h (p :: P) = chainFrom p.hash P := by
        show chainFrom (Hash.chain h p.content) P = chainFrom p.hash P
        rw [← hok'.1]
      rw [show (p :: P) ++ X = p :: (P ++ X) from rfl,
        show (p :: P) ++ Y = p :: (P ++ Y) from rfl,
        mergeLoopF_unfold, if_pos rfl, hre,
        ih g X Y p.hash hok'.2 (by simp only [List.length_cons] at hf; omega),
        hcf]
      simp only [List.length_cons, Nat.succ_sub_succ, List.cons_append]

/-! # Fast-path analysis of `mergeHistories` -/

theorem listHash_ne_empty (l : List Action) (h : l ≠ []) :
    listHash l ≠ Hash.empty := by
  intro he
  have hlen := hashLen_listHash l
  rw [he] at hlen
  simp only [hashLen] at hlen
  exact h (List.length_eq_zero.mp hlen.symm)

/-- If `P ++ Y` is a (take-)prefix of `P ++ X` and `Y` is nonempty, the
two suffixes share an element (namely the head of `Y`). -/
theorem append_take_common (P X Y : List Action) (k : ℕ)
    (hY : Y ≠ []) (heq : P ++ Y = (P ++ X).take k) :
    ∃ z, z ∈ X ∧ z ∈ Y := by
  have hk : (P ++ Y).length = min k (P ++ X).length := by
    rw [heq, List.length_take]
  simp only [List.length_append] at hk
  have hYpos : 0 < Y.length := List.length_pos.mpr hY
  have hkP : P.length ≤ k := by
    rw [Nat.min_def] at hk
    split_ifs at hk <;> omega
  rw [List.take_append_eq_append_take, List.take_of_length_le hkP] at heq
  have hXY : Y = X.take (k - P.length) := List.append_cancel_left heq
  obtain ⟨z, hzY⟩ := List.exists_mem_of_ne_nil Y hY
  have hzX : z ∈ X.take (k - P.length) := hXY ▸ hzY
  exact ⟨z, List.take_subset _ _ hzX, hzY⟩

/-- A nonempty extension strictly lengthens the chain, so the two final
hashes differ. -/
theorem historyHash_ne_extends (A extra : List Action)
    (h : wellChained (A ++ extra)) (hx : extra ≠ []) :
    historyHash A ≠ historyHash (A ++ extra) := by
  have hwA : wellChained A := wellChained_append_left A extra h
  rw [historyHash_eq_listHash A hwA, historyHash_eq_listHash _ h]
  intro he
  have h1 := hashLen_listHash A
  have h2 := hashLen_listHash (A ++ extra)
  rw [← he, h1, List.length_append] at h2
  exact hx (List.length_eq_zero.mp (by omega))

/-- No action of `A` carries the final hash of the strictly longer
history `A ++ extra`: hashes of members encode prefixes of `A`, which are
too short. -/
theorem any_hash_extends_false (A extra : List Action)
    (h : wellChained (A ++ extra)) (hx : extra ≠ []) :
    (A.any fun a => a.hash = historyHash (A ++ extra)) = false := by
  have hwA : wellChained A := wellChained_append_left A extra h
  rw [List.any_eq_false]
  intro a ha
  simp only [decide_eq_true_eq]
  intro hhash
  rw [historyHash_eq_listHash _ h] at hhash
  obtain ⟨k, hk0, hkle, hk⟩ := wellChained_mem_take A a hwA ha
  rw [hk] at hhash
  have h1 : hashLen (listHash (A.take k)) = k := by
    rw [hashLen_listHash, List.length_take]
    omega
  have h2 := hashLen_listHash (A ++ extra)
  rw [hhash, h2, List.length_append] at h1
  have : extra.length = 0 := by omega
  exact hx (List.length_eq_zero.mp this)

/-- The last action of a nonempty prefix `A` of `A ++ extra` carries the
final hash of `A`: the fast-forward fast path fires. -/
theorem any_hash_prefix_true (A extra : List Action)
    (h : wellChained (A ++ extra)) (hA : A ≠ []) :
    ((A ++ extra).any fun a => a.hash = historyHash A) = true := by
  have hwA : wellChained A := wellChained_append_left A extra h
  rw [List.any_eq_true]
  refine ⟨A.getLast hA, List.mem_append_left _ (List.getLast_mem hA), ?_⟩
  simp only [decide_eq_true_eq]
  rw [historyHash_eq_listHash A hwA]
  exact chainOkB_getLast A Hash.empty _ hwA (List.getLast?_eq_getLast A hA)

/-- No action of a well-chained history carries the empty hash. -/
theorem any_hash_empty_false (B : List Action) (h : wellChained B) :
    (B.any fun a => a.hash = historyHash []) = false := by
  rw [List.any_eq_false]
  intro a ha
  simp only [decide_eq_true_eq]
  intro hhash
  obtain ⟨k, hk0, hkle, hk⟩ := wellChained_mem_take B a h ha
  have hB : B ≠ [] := by
    intro hcon
    rw [hcon] at ha
    simp at ha
  have hne : B.take k ≠ [] := by
    intro hcon
    rcases List.take_eq_nil_iff.mp hcon with h0 | h0
    · omega
    · exact hB h0
  exact listHash_ne_empty _ hne (by rw [← hk]; exact hhash)

/-- `mergeHistories A (A ++ extra)` fast-forwards to `A ++ extra`. -/
theorem mergeHistories_extends (A extra : List Action)
    (h : wellChained (A ++ extra)) :
    mergeHistories A (A ++ extra) = A ++ extra := by
  by_cases hx : extra = []
  · subst hx
    rw [List.append_nil]
    simp [mergeHistories]
  · by_cases hA : A = []
    · subst hA
      rw [List.nil_append] at h ⊢
      have c1 : ¬ (historyHash [] = historyHash extra) :=
        historyHash_ne_extends [] extra (by rwa [List.nil_append]) hx
      have c3 : (extra.any fun a => a.hash = historyHash []) = false :=
        any_hash_empty_false extra h
      simp only [mergeHistories, if_neg c1, List.any_nil, Bool.false_eq_true,
        if_false, c3]
      unfold mergeLoop
      exact mergeLoopF_rechain_nil extra _ Hash.empty h (by simp)
    · have c1 : ¬ (historyHash A = historyHash (A ++ extra)) :=
        historyHash_ne_extends A extra h hx
      have c2 : (A.any fun a => a.hash = historyHash (A ++ extra)) = false :=
        any_hash_extends_false A extra h hx
      have c3 : ((A ++ extra).any fun a => a.hash = historyHash A) = true :=
        any_hash_prefix_true A extra h hA
      simp only [mergeHistories, if_neg c1, c2, c3, Bool.false_eq_true,
        if_false, if_true]

/-- `mergeHistories (A ++ extra) A` also returns `A ++ extra`. -/
theorem mergeHistories_extends_rev (A extra : List Action)
    (h : wellChained (A ++ extra)) :
    mergeHistories (A ++ extra) A = A ++ extra := by
  by_cases hx : extra = []
  · subst hx
    rw [List.append_nil]
    simp [mergeHistories]
  · by_cases hA : A = []
    · subst hA
      rw [List.nil_append] at h ⊢
      have c1 : ¬ (historyHash extra = historyHash []) :=
        Ne.symm (historyHash_ne_extends [] extra (by rwa [List.nil_append]) hx)
      have c2 : (extra.any fun a => a.hash = historyHash []) = false :=
        any_hash_empty_false extra h
      simp only [mergeHistories, if_neg c1, List.any_nil, Bool.false_eq_true,
        if_false, c2]
      unfold mergeLoop
      rw [mergeLoopF_one_sided]
      exact mergeLoopF_rechain_nil extra _ Hash.empty h (by simp)
    · have c1 : ¬ (historyHash (A ++ extra) = historyHash A) :=
        Ne.symm (historyHash_ne_extends A extra h hx)
      have c2 : ((A ++ extra).any fun a => a.hash = historyHash A) = true :=
        any_hash_prefix_true A extra h hA
      simp only [mergeHistories, if_neg c1, c2, if_true]

/-- The final hashes of two well-chained histories with a common prefix
and id-disjoint nonempty suffixes differ. -/
theorem merge_hash_ne (P X Y : List Action)
    (hA : wellChained (P ++ X)) (hB : wellChained (P ++ Y))
    (hX : X ≠ [])
    (hid : ∀ x ∈ X, ∀ y ∈ Y, x.id ≠ y.id) :
    historyHash (P ++ X) ≠ historyHash (P ++ Y) := by
  rw [historyHash_eq_listHash _ hA, historyHash_eq_listHash _ hB]
  intro he
  have hAB := wellChained_listHash_inj _ _ hA hB he
  have hXY : X = Y := List.append_cancel_left hAB
  exact hid (X.head hX) (List.head_mem hX) (X.head hX) (hXY ▸ List.head_mem hX) rfl

/-- With id-disjoint nonempty suffixes past the common prefix, neither
containment fast path of `mergeHistories` fires. -/
theorem merge_no_fastpath (P X Y : List Action)
    (hA : wellChained (P ++ X)) (hB : wellChained (P ++ Y))
    (hY : Y ≠ [])
    (hid : ∀ x ∈ X, ∀ y ∈ Y, x.id ≠ y.id) :
    ((P ++ X).any fun a => a.hash = historyHash (P ++ Y)) = false := by
  rw [List.any_eq_false]
  intro a ha
  simp only [decide_eq_true_eq]
  intro hhash
  rw [historyHash_eq_listHash _ hB] at hhash
  obtain ⟨k, hk0, hkle, hk⟩ := wellChained_mem_take _ a hA ha
  rw [hk] at hhash
  have htk := wellChained_listHash_inj _ _ (wellChained_take _ k hA) hB hhash
  obtain ⟨z, hzX, hzY⟩ := append_take_common P X Y k hY htk.symm
  exact hid z hzX z hzY rfl

/-- C6: merge fast-forward — for every history `A` and every well-chained
history `A ++ extra` obtained by appending extra actions to `A`,
`mergeHistories A (A ++ extra)` returns exactly `A ++ extra` with no
change to the common prefix, including the boundary cases where `A` is
empty and where `extra` is empty (equal final hashes). -/
theorem merge_fast_forward (A extra : List Action)
    (h : wellChained (A ++ extra)) :
    mergeHistories A (A ++ extra) = A ++ extra :=
  mergeHistories_extends A extra h

/-- First action of the concrete C6 witness history. -/
def witActA6 : Action :=
  { id := 11, time := 0, data := .listNew "w",
    hash := .chain .empty ⟨11, 0, .listNew "w"⟩ }

/-- Appended action of the concrete C6 witness history. -/
def witActB6 : Action :=
  { id := 12, time := 1, data := .listNew "v",
    hash := .chain witActA6.hash ⟨12, 1, .listNew "v"⟩ }

/-- C6 witness: the fast-forward theorem at a concrete one-action history
extended by one action. -/
theorem merge_fast_forward_wit :
    wellChained ([witActA6] ++ [witActB6]) ∧
    mergeHistories [witActA6] ([witActA6] ++ [witActB6]) =
      [witActA6] ++ [witActB6] := by
  refine ⟨?_, merge_fast_forward [witActA6] [witActB6] ?_⟩ <;>
    with_unfolding_all decide

/-- C5 (amended): merge commutativity — for well-chained histories
`P ++ X` and `P ++ Y` with common prefix `P` whose unique suffixes `X`
and `Y` share no action ids **and no timestamps**, merging in either
order yields the same history, and hence snapshots with the same hash;
when an action unique to `X` and an action unique to `Y` carry equal
timestamps the tie is broken in favour of the first-supplied history, so
the two merge orders produce different sequences and different hashes
(`merge_commutative_cex`). -/
theorem merge_commutative (P X Y : List Action)
    (hA : wellChained (P ++ X)) (hB : wellChained (P ++ Y))
    (hid : ∀ x ∈ X, ∀ y ∈ Y, x.id ≠ y.id)
    (htime : ∀ x ∈ X, ∀ y ∈ Y, x.time ≠ y.time) :
    mergeHistories (P ++ X) (P ++ Y) = mergeHistories (P ++ Y) (P ++ X) ∧
    (reduceActions (mergeHistories (P ++ X) (P ++ Y))).hash =
      (reduceActions (mergeHistories (P ++ Y) (P ++ X))).hash := by
  have heq : mergeHistories (P ++ X) (P ++ Y) =
      mergeHistories (P ++ Y) (P ++ X) := by
    by_cases hX : X = []
    · subst hX
      by_cases hY : Y = []
      · subst hY
        rfl
      · rw [List.append_nil]
        rw [mergeHistories_extends P Y hB, mergeHistories_extends_rev P Y hB]
    · by_cases hY : Y = []
      · subst hY
        rw [List.append_nil]
        rw [mergeHistories_extends_rev P X hA, mergeHistories_extends P X hA]
      · have hid' : ∀ y ∈ Y, ∀ x ∈ X, y.id ≠ x.id :=
          fun y hy x hx he => hid x hx y hy he.symm
        have f1 : historyHash (P ++ X) ≠ historyHash (P ++ Y) :=
          merge_hash_ne P X Y hA hB hX hid
        have f1' : historyHash (P ++ Y) ≠ historyHash (P ++ X) := Ne.symm f1
        have f2 : ((P ++ X).any fun a => a.hash = historyHash (P ++ Y)) = false :=
          merge_no_fastpath P X Y hA hB hY hid
        have f3 : ((P ++ Y).any fun a => a.hash = historyHash (P ++ X)) = false :=
          merge_no_fastpath P Y X hB hA hX hid'
        have hokP : chainOkB Hash.empty P = true := wellChained_append_left P X hA
        have hloop : mergeLoop (P ++ X) (P ++ Y) Hash.empty =
            mergeLoop (P ++ Y) (P ++ X) Hash.empty := by
          unfold mergeLoop
          rw [mergeLoopF_consume P _ X Y Hash.empty hokP
              (by simp only [List.length_append]; omega),
            mergeLoopF_consume P _ Y X Hash.empty hokP
              (by simp only [List.length_append]; omega)]
          congr 1
          rw [mergeLoopF_congr _ (X.length + Y.length) X Y (chainFrom Hash.empty P)
              (by simp only [List.length_append]; omega) le_rfl,
            mergeLoopF_congr _ (X.length + Y.length) Y X (chainFrom Hash.empty P)
              (by simp only [List.length_append]; omega) (by omega)]
          exact mergeLoopF_sym (X.length + Y.length) X Y _ le_rfl hid htime
        simp only [mergeHistories, if_neg f1, if_neg f1', f2, f3,
          Bool.false_eq_true, if_false]
        exact hloop
  exact ⟨heq, by rw [heq]⟩

/-- One of two concurrent same-timestamp actions for the C5 counterexample. -/
def cexActA5 : Action :=
  { id := 21, time := 5, data := .listNew "a",
    hash := .chain .empty ⟨21, 5, .listNew "a"⟩ }

/-- The other concurrent same-timestamp action for the C5 counterexample. -/
def cexActB5 : Action :=
  { id := 22, time := 5, data := .listNew "b",
    hash := .chain .empty ⟨22, 5, .listNew "b"⟩ }

/-- C5 counterexample: two independent single-action histories whose
actions carry equal timestamps merge to different sequences depending on
argument order (the tie goes to the first-supplied history), so the
reduced snapshots have different hashes — the unqualified claim is false. -/
theorem merge_commutative_cex :
    (reduceActions (mergeHistories [cexActA5] [cexActB5])).hash ≠
      (reduceActions (mergeHistories [cexActB5] [cexActA5])).hash := by
  with_unfolding_all decide

/-- First C5 witness action (time 0). -/
def witActX5 : Action :=
  { id := 31, time := 0, data := .listNew "p",
    hash := .chain .empty ⟨31, 0, .listNew "p"⟩ }

/-- Second C5 witness action (time 1, distinct id). -/
def witActY5 : Action :=
  { id := 32, time := 1, data := .listNew "q",
    hash := .chain .empty ⟨32, 1, .listNew "q"⟩ }

/-- C5 witness: the amended commutativity theorem at two independent
single-action histories with distinct ids and distinct timestamps. -/
theorem merge_commutative_wit :
    (wellChained ([] ++ [witActX5]) ∧ wellChained ([] ++ [witActY5]) ∧
      (∀ x ∈ [witActX5], ∀ y ∈ [witActY5], x.id ≠ y.id) ∧
      (∀ x ∈ [witActX5], ∀ y ∈ [witActY5], x.time ≠ y.time)) ∧
    (mergeHistories ([] ++ [witActX5]) ([] ++ [witActY5]) =
        mergeHistories ([] ++ [witActY5]) ([] ++ [witActX5]) ∧
      (reduceActions (mergeHistories ([] ++ [witActX5]) ([] ++ [witActY5]))).hash =
        (reduceActions (mergeHistories ([] ++ [witActY5]) ([] ++ [witActX5]))).hash) := by
  refine ⟨⟨?_, ?_, ?_, ?_⟩,
    merge_commutative [] [witActX5] [witActY5] ?_ ?_ ?_ ?_⟩ <;>
    with_unfolding_all decide

def cexActA4 : Action :=
  { id := 1, time := 0, data := .listNew "x",
    hash := .chain .empty ⟨1, 0, .listNew "x"⟩ }

/-- The `Undo` of `cexActA4`. -/
def cexActU4 : Action :=
  { id := 2, time := 1, data := .undo 1,
    hash := .chain cexActA4.hash ⟨2, 1, .undo 1⟩ }

/-- The `Redo` of `cexActA4`. -/
def cexActR4 : Action :=
  { id := 3, time := 2, data := .redo 1,
    hash := .chain cexActU4.hash ⟨3, 2, .redo 1⟩ }

/-- C4 counterexample: both folds complete (the appended `Undo` and `Redo`
are skipped by the skip pass, so the producer never throws), yet after
`A, Undo(A), Redo(A)` the snapshot's hash is the `Redo`'s hash, which
differs from the hash after only `A` — the claim that the two snapshots
have the same hash is false (they agree in every field except the hash,
see `undo_redo_round_trip`). -/
theorem undo_redo_round_trip_cex :
    reduceActionsE [ cexActA4, cexActU4, cexActR4 ] =
        .ok (reduceActions [ cexActA4, cexActU4, cexActR4 ]) ∧
    reduceActionsE [ cexActA4 ] = .ok (reduceActions [ cexActA4 ]) ∧
    (reduceActions [ cexActA4, cexActU4, cexActR4 ]).hash ≠
      (reduceActions [ cexActA4 ]).hash := by
  refine ⟨?_, ?_, ?_⟩ <;> with_unfolding_all decide

/-- C4 witness: the amended round-trip theorem applied to the empty prior
history and concrete `A`, `Undo(A)`, `Redo(A)` actions, whose folds both
complete. -/
theorem undo_redo_round_trip_wit :
    (isUndoRedo cexActA4.data = false ∧
      reduceActionsE ([] ++ [ cexActA4, cexActU4, cexActR4 ]) =
        .ok (reduceActions [ cexActA4, cexActU4, cexActR4 ]) ∧
      reduceActionsE ([] ++ [ cexActA4 ]) = .ok (reduceActions [ cexActA4 ])) ∧
    reduceActions [ cexActA4, cexActU4, cexActR4 ] =
      { reduceActions [ cexActA4 ] with hash := cexActR4.hash } :=
  ⟨⟨by decide, by with_unfolding_all decide, by with_unfolding_all decide⟩,
   undo_redo_round_trip [] cexActA4 cexActU4 cexActR4
     (reduceActions [ cexActA4, cexActU4, cexActR4 ]) (reduceActions [ cexActA4 ])
     (by decide) (by decide) (by decide) (by decide) (by decide) (by decide)
     (by decide) (by decide) (by with_unfolding_all decide)
     (by with_unfolding_all decide)⟩

end SaveApp
